import Mathlib

/-!
# Verification of the LSM storage engine

A shallow embedding, in Lean 4, of the core of the `lsm-storage` repository:
the skip-list memtable (`internal/storage/skiplist.go`), the Bloom membership
filter (`internal/storage/bloom_filter.go`), the segment-file (SSTable) writer
and reader (`internal/storage/sstable.go`, the variant with the membership
filter and without the per-key hash index, i.e. the `CreateSSTable` /
`OpenSSTable` / `Get` / `Write` functions), and the sharded engine
(`internal/storage/storage.go`).

Modelling conventions:

* Go byte slices and strings are `List Nat`; keys are compared with
  byte-lexicographic order exactly as Go compares strings.
* Machine integers are `Nat` (or `Int` where the source uses signed values in
  a way that matters), with explicit `% 2^w` where Go wraps.
* Code that can fail — with an error return or with a runtime panic
  (the modulus-by-zero in `BloomFilter.Add`, out-of-range slicing while
  scanning a block) — returns `Option`; `none` means the Go call does not
  return normally.
* File contents are `List Nat`; a positional read (`ReadAt`) succeeds exactly
  when the requested range lies inside the file, mirroring Go returning an
  error on a short read.
-/

namespace LSM

abbrev Bytes := List Nat

/-! ## Big-endian integer encoding (encoding/binary, BigEndian) -/

/-- `beBytes w n` is the big-endian `w`-byte encoding of `n` (mod `256^w`),
as produced by `binary.Write(..., binary.BigEndian, ...)` for the
corresponding fixed-width unsigned integer (and for non-negative `int64`
values when `w = 8`). -/
def beBytes : Nat → Nat → Bytes
  | 0, _ => []
  | w + 1, n => beBytes w (n / 256) ++ [n % 256]

/-- `readBE bs` decodes a big-endian byte string into a natural number, as
`binary.Read` does for unsigned integers (and non-negative signed ones). -/
def readBE (bs : Bytes) : Nat := bs.foldl (fun a b => a * 256 + b) 0

theorem length_beBytes (w n : Nat) : (beBytes w n).length = w := by
  induction w generalizing n with
  | zero => rfl
  | succ w ih => simp [beBytes, ih]

theorem readBE_from (bs : Bytes) (s : Nat) :
    bs.foldl (fun a b => a * 256 + b) s = s * 256 ^ bs.length + readBE bs := by
  induction bs generalizing s with
  | nil => simp [readBE]
  | cons x xs ih =>
    simp only [readBE, List.foldl_cons, List.length_cons] at *
    rw [ih (s * 256 + x), ih (0 * 256 + x)]
    ring

theorem readBE_append (a b : Bytes) :
    readBE (a ++ b) = readBE a * 256 ^ b.length + readBE b := by
  unfold readBE
  rw [List.foldl_append, readBE_from]
  rfl

theorem readBE_beBytes (w n : Nat) : readBE (beBytes w n) = n % 256 ^ w := by
  induction w generalizing n with
  | zero => simp [beBytes, readBE, Nat.mod_one]
  | succ w ih =>
    show readBE (beBytes w (n / 256) ++ [n % 256]) = _
    rw [readBE_append, ih]
    have h1 : readBE [n % 256] = n % 256 := by simp [readBE]
    have h2 : (([n % 256] : Bytes)).length = 1 := rfl
    rw [h1, h2]
    have hpow : (256 : ℕ) ^ (w + 1) = 256 * 256 ^ w := by ring
    rw [hpow, Nat.mod_mul]
    ring

theorem readBE_beBytes_of_lt {w n : Nat} (h : n < 256 ^ w) :
    readBE (beBytes w n) = n := by
  rw [readBE_beBytes, Nat.mod_eq_of_lt h]

/-! ## Byte-lexicographic order (Go string comparison / bytes.Compare) -/

/-- Go string `<` / `bytes.Compare(..) < 0`: strict lexicographic order on
byte strings, a proper prefix being smaller. -/
def bytesLt : Bytes → Bytes → Bool
  | [], [] => false
  | [], _ :: _ => true
  | _ :: _, [] => false
  | a :: as, b :: bs => if a < b then true else if b < a then false else bytesLt as bs

theorem bytesLt_irrefl (a : Bytes) : bytesLt a a = false := by
  induction a with
  | nil => rfl
  | cons x xs ih => simp [bytesLt, ih]

theorem bytesLt_trans : ∀ {a b c : Bytes},
    bytesLt a b = true → bytesLt b c = true → bytesLt a c = true
  | [], [], _, h, _ => by cases h
  | [], _ :: _, [], _, h => by cases h
  | [], _ :: _, _ :: _, _, _ => rfl
  | _ :: _, [], _, h, _ => by cases h
  | _ :: _, _ :: _, [], _, h => by cases h
  | a :: as, b :: bs, c :: cs, h1, h2 => by
    simp only [bytesLt] at h1 h2 ⊢
    by_cases hab : a < b
    · have hbc : b ≤ c := by
        by_contra hc
        simp [show ¬ b < c by omega, show c < b by omega] at h2
      simp [show a < c by omega]
    · have hba : ¬ b < a := by
        intro hc
        simp [hab, hc] at h1
      have h1x : bytesLt as bs = true := by simpa [hab, hba] using h1
      have heq : a = b := by omega
      subst heq
      by_cases hac : a < c
      · simp [hac]
      · have hca : ¬ c < a := by
          intro hc
          simp [hac, hc] at h2
        have h2x : bytesLt bs cs = true := by simpa [hac, hca] using h2
        simp only [hac, hca, if_false]
        exact bytesLt_trans h1x h2x

theorem bytesLt_total : ∀ {a b : Bytes},
    bytesLt a b = false → bytesLt b a = false → a = b
  | [], [], _, _ => rfl
  | [], _ :: _, h, _ => by cases h
  | _ :: _, [], _, h => by cases h
  | a :: as, b :: bs, h1, h2 => by
    simp only [bytesLt] at h1 h2
    by_cases hab : a < b
    · simp [hab] at h1
    · by_cases hba : b < a
      · simp [hba] at h2
      · have h1x : bytesLt as bs = false := by simpa [hab, hba] using h1
        have h2x : bytesLt bs as = false := by simpa [hab, hba] using h2
        have heq : a = b := by omega
        subst heq
        rw [bytesLt_total h1x h2x]

theorem bytesLt_asymm {a b : Bytes} (h : bytesLt a b = true) :
    bytesLt b a = false := by
  by_contra hc
  have hba : bytesLt b a = true := by
    cases hx : bytesLt b a
    · exact absurd hx hc
    · rfl
  have := bytesLt_trans h hba
  rw [bytesLt_irrefl] at this
  cases this

theorem bytesLt_of_le_of_lt {a b c : Bytes}
    (h1 : bytesLt b a = false) (h2 : bytesLt b c = true) : bytesLt a c = true := by
  cases hab : bytesLt a b
  · have heq : a = b := bytesLt_total hab h1
    subst heq
    exact h2
  · exact bytesLt_trans hab h2

theorem bytesLt_of_lt_of_le {a b c : Bytes}
    (h1 : bytesLt a b = true) (h2 : bytesLt c b = false) : bytesLt a c = true := by
  cases hbc : bytesLt b c
  · have heq : b = c := bytesLt_total hbc h2
    subst heq
    exact h1
  · exact bytesLt_trans h1 hbc

/-! ## FNV hashes (hash/fnv)

`hashKey` in `bloom_filter.go` uses FNV-64a and splits the digest into two
32-bit halves; `Storage.getShard` uses FNV-32a. -/

/-- FNV-1a, 64-bit: for each byte, xor then multiply, wrapping mod `2^64`. -/
def fnv64 (bs : Bytes) : Nat :=
  bs.foldl (fun h b => ((h ^^^ b) * 1099511628211) % 2 ^ 64) 14695981039346656037

/-- FNV-1a, 32-bit: for each byte, xor then multiply, wrapping mod `2^32`. -/
def fnv32 (bs : Bytes) : Nat :=
  bs.foldl (fun h b => ((h ^^^ b) * 16777619) % 2 ^ 32) 2166136261

/-! ## Bloom filter (bloom_filter.go)

`BloomFilter` is a raw byte array. `Add` computes
`idx := (h[0] + uint32(i)*h[1]) % m` for `i < 4` with `m = uint32(len(bf)*8)`
and sets bit `idx`; when `m = 0` the Go modulus panics, which the model
renders as `none`. `Contains` first answers `true` for an empty filter, then
probes the same four positions. -/

/-- The modulus `uint32(len(bf) * 8)` used by `Add` and `Contains`. -/
def bloomM (bf : Bytes) : Nat := bf.length * 8 % 2 ^ 32

/-- Probe position `i` for `key`: `(h[0] + uint32(i)*h[1]) % m` in `uint32`
arithmetic, with `h[0]`, `h[1]` the low and high halves of the FNV-64a hash. -/
def bloomPos (m : Nat) (key : Bytes) (i : Nat) : Nat :=
  (fnv64 key % 2 ^ 32 + i * (fnv64 key / 2 ^ 32)) % 2 ^ 32 % m

/-- `bf[idx/8] |= 1 << (idx % 8)`. -/
def setBit (bf : Bytes) (idx : Nat) : Bytes :=
  bf.set (idx / 8) (bf.getD (idx / 8) 0 ||| 1 <<< (idx % 8))

/-- `bf[idx/8] & (1 << (idx % 8)) != 0`. -/
def probeBit (bf : Bytes) (idx : Nat) : Bool :=
  bf.getD (idx / 8) 0 &&& 1 <<< (idx % 8) != 0

/-- `BloomFilter.Add`; `none` models the division-by-zero panic when the
filter has zero bits. -/
def bloomAdd (bf : Bytes) (key : Bytes) : Option Bytes :=
  if bloomM bf = 0 then none
  else some ((List.range 4).foldl (fun b i => setBit b (bloomPos (bloomM bf) key i)) bf)

/-- `BloomFilter.Contains`; an empty filter answers `true` unconditionally;
for a non-empty filter all four probed bits must be set. (`none` models the
same modulus panic, reachable only for absurd filter sizes where
`len(bf)*8` wraps to 0 in `uint32`.) -/
def bloomContains (bf : Bytes) (key : Bytes) : Option Bool :=
  if bf.length = 0 then some true
  else if bloomM bf = 0 then none
  else some ((List.range 4).all fun i => probeBit bf (bloomPos (bloomM bf) key i))

theorem length_setBit (bf : Bytes) (idx : Nat) :
    (setBit bf idx).length = bf.length := by
  simp [setBit]

theorem probeBit_eq_testBit (bf : Bytes) (idx : Nat) :
    probeBit bf idx = (bf.getD (idx / 8) 0).testBit (idx % 8) := by
  unfold probeBit
  rw [Nat.shiftLeft_eq, one_mul, Nat.and_two_pow]
  cases h : (bf.getD (idx / 8) 0).testBit (idx % 8) <;> simp [h]

theorem getD_set_ne (bf : Bytes) {i j : Nat} (a : Nat) (hd : i ≠ j) :
    (bf.set i a).getD j 0 = bf.getD j 0 := by
  simp [List.getD_eq_getElem?_getD, List.getElem?_set_ne hd]

theorem getD_set_self (bf : Bytes) {i : Nat} (a : Nat) (h : i < bf.length) :
    (bf.set i a).getD i 0 = a := by
  simp [List.getD_eq_getElem?_getD, List.getElem?_set_self h]

theorem probeBit_setBit_self {bf : Bytes} {idx : Nat}
    (h : idx / 8 < bf.length) : probeBit (setBit bf idx) idx = true := by
  rw [probeBit_eq_testBit, setBit, getD_set_self _ _ h]
  simp [Nat.testBit_lor, Nat.shiftLeft_eq, Nat.testBit_two_pow_self]

theorem probeBit_setBit_mono {bf : Bytes} {j : Nat} (idx : Nat)
    (h : probeBit bf j = true) : probeBit (setBit bf idx) j = true := by
  rw [probeBit_eq_testBit] at h ⊢
  unfold setBit
  by_cases hd : idx / 8 = j / 8
  · by_cases hlen : idx / 8 < bf.length
    · rw [hd] at hlen
      rw [hd, getD_set_self _ _ hlen, Nat.testBit_lor]
      rw [List.getD_eq_getElem?_getD] at h
      simp [h]
    · rw [List.set_eq_of_length_le (le_of_not_lt hlen)]
      exact h
  · rw [getD_set_ne _ _ hd]
    exact h

theorem length_foldl_setBit (l : List Nat) (bf : Bytes) :
    (l.foldl setBit bf).length = bf.length := by
  induction l generalizing bf with
  | nil => rfl
  | cons x xs ih => rw [List.foldl_cons, ih, length_setBit]

theorem probeBit_foldl_setBit_mono (l : List Nat) {bf : Bytes} {j : Nat}
    (h : probeBit bf j = true) : probeBit (l.foldl setBit bf) j = true := by
  induction l generalizing bf with
  | nil => exact h
  | cons x xs ih => exact ih (probeBit_setBit_mono x h)

theorem probeBit_foldl_setBit_mem {l : List Nat} {bf : Bytes} {j : Nat}
    (hj : j ∈ l) (hlt : ∀ i ∈ l, i / 8 < bf.length) :
    probeBit (l.foldl setBit bf) j = true := by
  induction l generalizing bf with
  | nil => cases hj
  | cons x xs ih =>
    rw [List.foldl_cons]
    rcases List.mem_cons.mp hj with hx | hx
    · subst hx
      exact probeBit_foldl_setBit_mono xs
        (probeBit_setBit_self (hlt j (List.mem_cons_self j xs)))
    · exact ih hx fun i hi => by
        rw [length_setBit]
        exact hlt i (List.mem_cons_of_mem x hi)

theorem bloomAdd_length {bf bf2 : Bytes} {k : Bytes}
    (h : bloomAdd bf k = some bf2) : bf2.length = bf.length := by
  unfold bloomAdd at h
  by_cases hm : bloomM bf = 0
  · simp [hm] at h
  · simp only [hm, if_false, Option.some.injEq] at h
    rw [← h, show (List.range 4).foldl (fun b i => setBit b (bloomPos (bloomM bf) k i)) bf
        = ((List.range 4).map (bloomPos (bloomM bf) k)).foldl setBit bf by rw [List.foldl_map],
      length_foldl_setBit]

theorem bloomM_pos_of_add {bf bf2 : Bytes} {k : Bytes}
    (h : bloomAdd bf k = some bf2) : bloomM bf ≠ 0 := by
  intro hm
  simp [bloomAdd, hm] at h

theorem bloomPos_div_lt {bf : Bytes} (hm : bloomM bf ≠ 0) (k : Bytes) (i : Nat) :
    bloomPos (bloomM bf) k i / 8 < bf.length := by
  have hlt : bloomPos (bloomM bf) k i < bloomM bf := Nat.mod_lt _ (Nat.pos_of_ne_zero hm)
  have hle : bloomM bf ≤ bf.length * 8 := Nat.mod_le _ _
  have : bloomPos (bloomM bf) k i < bf.length * 8 := lt_of_lt_of_le hlt hle
  omega

/-- After a successful `Add` of `k`, all four of `k`'s probe positions are
set, and they stay set under any further `Add`s. -/
theorem bloomAdd_probes {bf bf2 : Bytes} {k : Bytes}
    (h : bloomAdd bf k = some bf2) (i : Nat) (hi : i ∈ List.range 4) :
    probeBit bf2 (bloomPos (bloomM bf) k i) = true := by
  have hm := bloomM_pos_of_add h
  unfold bloomAdd at h
  simp only [hm, if_false, Option.some.injEq] at h
  subst h
  rw [show (List.range 4).foldl (fun b i => setBit b (bloomPos (bloomM bf) k i)) bf
      = ((List.range 4).map (bloomPos (bloomM bf) k)).foldl setBit bf by
    rw [List.foldl_map]]
  apply probeBit_foldl_setBit_mem
  · exact List.mem_map_of_mem _ hi
  · intro j hjm
    obtain ⟨i2, _, hi2⟩ := List.mem_map.mp hjm
    rw [← hi2]
    exact bloomPos_div_lt hm k i2

/-- Folding `Add` over a list of keys (`none` if any individual `Add`
panicked). This is exactly how the segment writer populates its filter. -/
def addAll (bf : Bytes) (ks : List Bytes) : Option Bytes := ks.foldlM bloomAdd bf

theorem addAll_length {bf bf2 : Bytes} {ks : List Bytes}
    (h : addAll bf ks = some bf2) : bf2.length = bf.length := by
  induction ks generalizing bf with
  | nil =>
    unfold addAll at h
    rw [List.foldlM_nil] at h
    cases h
    rfl
  | cons x xs ih =>
    unfold addAll at h
    rw [List.foldlM_cons] at h
    cases hx : bloomAdd bf x with
    | none => rw [hx] at h; cases h
    | some bf1 =>
      rw [hx] at h
      exact (ih h).trans (bloomAdd_length hx)

theorem addAll_probe_mono {bf bf2 : Bytes} {ks : List Bytes} {j : Nat}
    (h : addAll bf ks = some bf2) (hp : probeBit bf j = true) :
    probeBit bf2 j = true := by
  induction ks generalizing bf with
  | nil =>
    unfold addAll at h
    rw [List.foldlM_nil] at h
    cases h
    exact hp
  | cons x xs ih =>
    unfold addAll at h
    rw [List.foldlM_cons] at h
    cases hx : bloomAdd bf x with
    | none => rw [hx] at h; cases h
    | some bf1 =>
      rw [hx] at h
      apply ih h
      have hm := bloomM_pos_of_add hx
      unfold bloomAdd at hx
      simp only [hm, if_false, Option.some.injEq] at hx
      subst hx
      rw [show (List.range 4).foldl (fun b i => setBit b (bloomPos (bloomM bf) x i)) bf
          = ((List.range 4).map (bloomPos (bloomM bf) x)).foldl setBit bf by
        rw [List.foldl_map]]
      exact probeBit_foldl_setBit_mono _ hp

/-- Main Bloom-filter guarantee: a key that went through a successful `Add`
during `addAll` satisfies `Contains` on the final filter. -/
theorem addAll_contains {bf bf2 : Bytes} {ks : List Bytes} {k : Bytes}
    (h : addAll bf ks = some bf2) (hk : k ∈ ks) :
    bloomContains bf2 k = some true := by
  induction ks generalizing bf with
  | nil => cases hk
  | cons x xs ih =>
    unfold addAll at h
    rw [List.foldlM_cons] at h
    cases hx : bloomAdd bf x with
    | none => rw [hx] at h; cases h
    | some bf1 =>
      rw [hx] at h
      rcases List.mem_cons.mp hk with hkx | hkx
      · subst hkx
        have hm := bloomM_pos_of_add hx
        have hlen1 : bf1.length = bf.length := bloomAdd_length hx
        have hlen2 : bf2.length = bf.length := (addAll_length h).trans hlen1
        have hmb2 : bloomM bf2 = bloomM bf := by unfold bloomM; rw [hlen2]
        have hlenpos : bf2.length ≠ 0 := by
          intro hz
          apply hm
          unfold bloomM
          rw [← hlen2, hz]
          simp
        unfold bloomContains
        rw [if_neg hlenpos, hmb2, if_neg hm]
        congr 1
        rw [List.all_eq_true]
        intro i hi
        exact addAll_probe_mono h (bloomAdd_probes hx i hi)
      · exact ih h hkx

/-! ## Records and the skip list (skiplist.go)

A record is `(key, value, flags, isTombstone)`. The skip list is modelled by
its level-0 chain — the sorted list of its records — together with the
tracked `size` field. The multi-level structure and the random level draws
only affect how many pointers the Go code follows, never which node a search
lands on, so the level-0 chain is the whole observable state. -/

structure Entry where
  key : Bytes
  value : Bytes
  flags : Nat
  tomb : Bool
  deriving DecidableEq, Inhabited

structure SkipListM where
  entries : List Entry
  size : Int
  deriving DecidableEq, Inhabited

/-- Entries strictly ascending by key: the skip-list level-0 invariant. -/
def SortedE (es : List Entry) : Prop :=
  List.Chain' (fun a b => bytesLt a.key b.key = true) es

instance (es : List Entry) : Decidable (SortedE es) :=
  inferInstanceAs (Decidable (List.Chain' _ es))

/-- `NewSkipList()`: empty chain, size 0. -/
def slNew : SkipListM := ⟨[], 0⟩

/-- Whether a key is present in the chain (what the `target != nil &&
target.key == key` test in `SkipList.Set` observes). -/
def containsKey (es : List Entry) (k : Bytes) : Bool :=
  es.any fun e => e.key == k

/-- Sorted insertion into the level-0 chain: overwrite in place when the key
is present, insert a new node at its sorted position otherwise. -/
def chainSet (es : List Entry) (e : Entry) : List Entry :=
  match es with
  | [] => [e]
  | x :: xs =>
    if bytesLt e.key x.key then e :: x :: xs
    else if x.key == e.key then e :: xs
    else x :: chainSet xs e

/-- `SkipList.Set(key, value, flags, isTombstone)`: the size grows by
`len(key)+len(value)+12` only on the insert path; the overwrite path
returns before the size update. -/
def slSet (s : SkipListM) (k v : Bytes) (f : Nat) (t : Bool) : SkipListM :=
  if containsKey s.entries k then
    { entries := chainSet s.entries ⟨k, v, f, t⟩, size := s.size }
  else
    { entries := chainSet s.entries ⟨k, v, f, t⟩,
      size := s.size + ((k.length + v.length + 12 : Nat) : Int) }

/-- `SkipList.Get(key)`: `some (value, flags, isTombstone)` when found. -/
def slGet (s : SkipListM) (k : Bytes) : Option (Bytes × Nat × Bool) :=
  (s.entries.find? fun e => e.key == k).map fun e => (e.value, e.flags, e.tomb)

/-- `SkipList.Delete(key) = Set(key, nil, 0, true)`. -/
def slDelete (s : SkipListM) (k : Bytes) : SkipListM := slSet s k [] 0 true

/-! ## Segment file (SSTable) encoding — sstable.go

Record encoding (`writeEntry`): a 12-byte header
(`uint16 keyLen, uint32 valueLen, uint32 flags, uint16 tombstone`)
followed by key and value bytes, everything big-endian. -/

/-- The bytes `writeEntry` produces for one record. -/
def encEntry (e : Entry) : Bytes :=
  beBytes 2 e.key.length ++ beBytes 4 e.value.length ++ beBytes 4 e.flags ++
    beBytes 2 (if e.tomb then 1 else 0) ++ e.key ++ e.value

/-- The size returned by `writeEntry`: `12 + len(key) + len(value)`. -/
def entrySize (e : Entry) : Nat := 12 + e.key.length + e.value.length

theorem length_encEntry (e : Entry) : (encEntry e).length = entrySize e := by
  simp [encEntry, entrySize, length_beBytes]
  omega

/-- A sparse-index entry: key and absolute offset of the referenced record. -/
structure IdxEntry where
  key : Bytes
  offset : Nat
  deriving DecidableEq, Inhabited

/-- Writer state while iterating the chain in `SSTable.Write`: accumulated
data-region bytes (whose length is the running `offset`), the sparse index,
`lastIndexEntryOffset`, and the Bloom filter. -/
structure WAcc where
  data : Bytes
  idx : List IdxEntry
  lastOff : Nat
  filter : Bytes
  deriving DecidableEq

/-- One iteration of the writer loop: emit a sparse-index entry when
`offset == 0 || offset-lastIndexEntryOffset >= blockSize` (the subtraction is
on values with `lastOff ≤ offset`, so `Nat` subtraction agrees with the Go
`int64` one), add the key to the filter (`none` on the filter panic), and
append the encoded record. -/
def writeStep (bs : Nat) (acc : WAcc) (e : Entry) : Option WAcc :=
  let off := acc.data.length
  match bloomAdd acc.filter e.key with
  | none => none
  | some f2 =>
    if off = 0 ∨ bs ≤ off - acc.lastOff then
      some ⟨acc.data ++ encEntry e, acc.idx ++ [⟨e.key, off⟩], off, f2⟩
    else
      some ⟨acc.data ++ encEntry e, acc.idx, acc.lastOff, f2⟩

/-- Serialized sparse index (`writeIndex` before the trailer): for each entry
`uint16 keyLen ++ key ++ int64 offset`. -/
def idxBytes (ies : List IdxEntry) : Bytes :=
  (ies.map fun ie => beBytes 2 ie.key.length ++ ie.key ++ beBytes 8 ie.offset).flatten

/-- `SSTable.Write` over a chain of records with a filter of `fl` bytes
(`fl` models the byte count `NewBloomFilter` allocated): data region, then
`uint32 filterLen ++ filter`, then the sparse index, then the 16-byte trailer
`int64 bloomStart ++ int64 indexStart`. `none` when the filter `Add`
panicked. -/
def writeTable (bs fl : Nat) (es : List Entry) : Option Bytes :=
  (es.foldlM (writeStep bs) ⟨[], [], 0, List.replicate fl 0⟩).map fun acc =>
    acc.data ++ (beBytes 4 acc.filter.length ++ acc.filter) ++ idxBytes acc.idx ++
      (beBytes 8 acc.data.length ++ beBytes 8 (acc.data.length + 4 + acc.filter.length))

/-- Truncated-rational model of the `float64` sizing in
`NewBloomFilter(n, 0.01)`: `m = uint32(-n·ln(0.01)/(ln 2)²)` bits. At `n = 0`
the float computation yields exactly `+0.0` whatever the libm, so the filter
has zero bytes; that is the only input where any theorem below depends on
the exact value. For `n ≥ 1` the constant `-ln(0.01)/(ln 2)² = 9.58505584…`
is approximated; theorems use only positivity and rough magnitude. -/
def bloomBits (n : Nat) : Nat := 958505584 * n / 100000000

/-- Bytes allocated by `NewBloomFilter`: `(m + 7) / 8`. -/
def bloomBytes (n : Nat) : Nat := (bloomBits n + 7) / 8

/-- `SSTable.Write(skipList)` proper: the filter is sized from the tracked
size as `NewBloomFilter(int(skipList.size/64), 0.01)`. -/
def writeSSTable (bs : Nat) (sl : SkipListM) : Option Bytes :=
  writeTable bs (bloomBytes (sl.size.toNat / 64)) sl.entries

/-! ## Segment file reader — OpenSSTable / readBloomFilter / readIndex -/

/-- `(l.drop pos).take n`: the bytes a positional read returns. -/
def sliceN (l : Bytes) (pos n : Nat) : Bytes := (l.drop pos).take n

/-- `ReadAt`-style read: `n` bytes at `pos`, error (`none`) when the range
is not entirely inside the file, as Go fails on a short read. -/
def readAtN (l : Bytes) (pos n : Nat) : Option Bytes :=
  if pos + n ≤ l.length then some (sliceN l pos n) else none

/-- The `readIndex` loop: starting at `pos`, while `pos < stop` read
`uint16 keyLen`, the key, and an `int64 offset`. The offset is kept as its
unsigned reading; a "negative" value behaves, downstream, exactly like the
huge positive one (the positional read fails). `fuel` only forces
termination and is chosen larger than the iteration count. -/
def parseIdx (file : Bytes) (stop : Nat) : Nat → Nat → Option (List IdxEntry)
  | 0, _ => none
  | fuel + 1, pos =>
    if stop ≤ pos then some []
    else
      match readAtN file pos 2 with
      | none => none
      | some kb =>
        let kLen := readBE kb
        match readAtN file (pos + 2) kLen with
        | none => none
        | some key =>
          match readAtN file (pos + 2 + kLen) 8 with
          | none => none
          | some ob =>
            match parseIdx file stop fuel (pos + 2 + kLen + 8) with
            | none => none
            | some rest => some (⟨key, readBE ob⟩ :: rest)

/-- An opened segment file: in-memory filter, sparse index, `bloomStart`,
and the file contents standing in for the read-only handle. -/
structure TableM where
  filter : Bytes
  index : List IdxEntry
  bloomStart : Nat
  file : Bytes
  deriving DecidableEq, Inhabited

/-- `OpenSSTable`: read the trailer (`Seek(-16)` fails on files shorter than
16 bytes; a negative `int64` start makes the subsequent `Seek` fail), load
the filter region, then parse the sparse index up to `fileSize - 16`. -/
def openTable (file : Bytes) : Option TableM :=
  if file.length < 16 then none
  else
    let bloomStart := readBE (sliceN file (file.length - 16) 8)
    if 2 ^ 63 ≤ bloomStart then none
    else
      match readAtN file bloomStart 4 with
      | none => none
      | some lb =>
        match readAtN file (bloomStart + 4) (readBE lb) with
        | none => none
        | some filt =>
          let indexStart := readBE (sliceN file (file.length - 8) 8)
          if 2 ^ 63 ≤ indexStart then none
          else
            match parseIdx file (file.length - 16) (file.length + 1) indexStart with
            | none => none
            | some idx => some ⟨filt, idx, bloomStart, file⟩

/-! ## Segment file lookup — SSTable.Get -/

/-- Go `sort.Search(n, f)`: binary search, returning the boundary the loop
converges to (for a monotone `f`, the least `i` with `f i`, else `n`).
The fuel always dominates the iteration count since `j - i` shrinks on
every step. -/
def sortSearchAux (f : Nat → Bool) : Nat → Nat → Nat → Nat
  | 0, i, _ => i
  | fuel + 1, i, j =>
    if i < j then
      let h := (i + j) / 2
      if f h then sortSearchAux f fuel i h
      else sortSearchAux f fuel (h + 1) j
    else i

def sortSearch (n : Nat) (f : Nat → Bool) : Nat := sortSearchAux f n 0 n

/-- The block walk in `SSTable.Get`: decode records sequentially from `pos`;
return the record whose key equals the search key, stop with "not found"
at the first larger key or at the end of the block; out-of-range slicing
(possible only on malformed blocks) panics, i.e. `none`. -/
def scanBlock (buf : Bytes) (k : Bytes) : Nat → Nat → Option (Option (Bytes × Nat × Bool))
  | 0, _ => none
  | fuel + 1, pos =>
    if buf.length ≤ pos then some none
    else if buf.length < pos + 12 then none
    else
      let kLen := readBE (sliceN buf pos 2)
      let vLen := readBE (sliceN buf (pos + 2) 4)
      let flags := readBE (sliceN buf (pos + 6) 4)
      let tomb := readBE (sliceN buf (pos + 10) 2) == 1
      if buf.length < pos + 12 + kLen then none
      else
        let key := sliceN buf (pos + 12) kLen
        if key == k then
          if buf.length < pos + 12 + kLen + vLen then none
          else some (some (sliceN buf (pos + 12 + kLen) vLen, flags, tomb))
        else if bytesLt k key then some none
        else scanBlock buf k fuel (pos + 12 + kLen + vLen)

/-- `SSTable.Get(searchKey)`: Bloom filter gate, then the sparse-index
binary search selects a block `[start, end)` (`end` is the next index
entry's offset or `bloomStart`), read the block, walk it. The outer `Option`
is abnormal termination (I/O error or panic); the inner one is
found / not-found. -/
def tableGet (t : TableM) (k : Bytes) : Option (Option (Bytes × Nat × Bool)) :=
  match bloomContains t.filter k with
  | none => none
  | some false => some none
  | some true =>
    if t.index.length = 0 then some none
    else
      let i := sortSearch t.index.length fun j => bytesLt k (t.index.getD j default).key
      let targetIdx := if 0 < i then i - 1 else 0
      let startOffset := (t.index.getD targetIdx default).offset
      let endOffset :=
        if targetIdx + 1 < t.index.length then (t.index.getD (targetIdx + 1) default).offset
        else t.bloomStart
      if endOffset < startOffset then none
      else
        match readAtN t.file startOffset (endOffset - startOffset) with
        | none => none
        | some buf => scanBlock buf k (buf.length + 1) 0

/-- The mapping a chain of records denotes: first (unique, by sortedness)
record with the given key. -/
def entriesLookup (k : Bytes) (es : List Entry) : Option (Bytes × Nat × Bool) :=
  (es.find? fun e => e.key == k).map fun e => (e.value, e.flags, e.tomb)

/-! ## Round-trip: characterizing the writer fold -/

/-- The data region: concatenated record encodings in chain order. -/
def buildData (es : List Entry) : Bytes := (es.map encEntry).flatten

/-- Length of the data region. -/
def dataLen (es : List Entry) : Nat := (es.map entrySize).sum

theorem length_buildData (es : List Entry) : (buildData es).length = dataLen es := by
  unfold buildData dataLen
  rw [List.length_flatten, List.map_map]
  congr 1
  apply List.map_congr_left
  intro e _
  exact length_encEntry e

theorem buildData_cons (e : Entry) (r : List Entry) :
    buildData (e :: r) = encEntry e ++ buildData r := by
  simp [buildData]

theorem dataLen_cons (e : Entry) (r : List Entry) :
    dataLen (e :: r) = entrySize e + dataLen r := by
  simp [dataLen]

/-- Absolute offset of entry `p` in the data region. -/
def offAt (es : List Entry) (p : Nat) : Nat := dataLen (es.take p)

theorem offAt_zero (es : List Entry) : offAt es 0 = 0 := rfl

theorem dataLen_append (a b : List Entry) : dataLen (a ++ b) = dataLen a + dataLen b := by
  simp [dataLen]

theorem offAt_succ (es : List Entry) (p : Nat) (h : p < es.length) :
    offAt es (p + 1) = offAt es p + entrySize (es.getD p default) := by
  unfold offAt
  rw [List.take_succ, dataLen_append]
  congr 1
  rw [List.getElem?_eq_getElem h]
  simp [dataLen, List.getD_eq_getElem?_getD, List.getElem?_eq_getElem h]

theorem offAt_mono {es : List Entry} {a b : Nat} (h : a ≤ b) :
    offAt es a ≤ offAt es b := by
  unfold offAt dataLen
  induction b generalizing a with
  | zero =>
    interval_cases a
    exact le_refl _
  | succ b ih =>
    rcases Nat.lt_or_ge a (b + 1) with hab | hab
    · calc (List.map entrySize (es.take a)).sum ≤ (List.map entrySize (es.take b)).sum :=
            ih (by omega)
        _ ≤ _ := by
            rw [List.take_succ]
            cases h2 : es[b]? <;> simp
    · have : a = b + 1 := by omega
      subst this
      exact le_refl _

/-- The sparse index the writer loop emits, as a function of the remaining
chain, the running offset, and `lastIndexEntryOffset`. -/
def buildIdx (bs : Nat) : List Entry → Nat → Nat → List IdxEntry
  | [], _, _ => []
  | e :: r, off, lastOff =>
    if off = 0 ∨ bs ≤ off - lastOff then
      ⟨e.key, off⟩ :: buildIdx bs r (off + entrySize e) off
    else
      buildIdx bs r (off + entrySize e) lastOff

/-- The final `lastIndexEntryOffset`, same recursion. -/
def buildLast (bs : Nat) : List Entry → Nat → Nat → Nat
  | [], _, lastOff => lastOff
  | e :: r, off, lastOff =>
    if off = 0 ∨ bs ≤ off - lastOff then
      buildLast bs r (off + entrySize e) off
    else
      buildLast bs r (off + entrySize e) lastOff

/-- The writer fold, solved: data region, sparse index, and the filter fold
are computed independently. -/
theorem foldlM_writeStep (bs : Nat) (es : List Entry) : ∀ acc : WAcc,
    es.foldlM (writeStep bs) acc =
      (addAll acc.filter (es.map Entry.key)).map fun f =>
        ⟨acc.data ++ buildData es, acc.idx ++ buildIdx bs es acc.data.length acc.lastOff,
         buildLast bs es acc.data.length acc.lastOff, f⟩ := by
  induction es with
  | nil =>
    intro acc
    simp [addAll, buildIdx, buildLast, buildData]
  | cons e r ih =>
    intro acc
    rw [List.foldlM_cons]
    show (writeStep bs acc e).bind (r.foldlM (writeStep bs)) = _
    unfold writeStep
    cases hadd : bloomAdd acc.filter e.key with
    | none =>
      simp only [hadd]
      have : addAll acc.filter ((e :: r).map Entry.key) = none := by
        simp [addAll, List.foldlM_cons, hadd]
      rw [this]
      rfl
    | some f2 =>
      have hkeys : addAll acc.filter ((e :: r).map Entry.key) = addAll f2 (r.map Entry.key) := by
        simp [addAll, List.foldlM_cons, hadd]
      rw [hkeys]
      simp only [hadd]
      have hlen : (acc.data ++ encEntry e).length = acc.data.length + entrySize e := by
        rw [List.length_append, length_encEntry]
      by_cases hsel : acc.data.length = 0 ∨ bs ≤ acc.data.length - acc.lastOff
      · rw [if_pos hsel]
        show r.foldlM (writeStep bs)
            ⟨acc.data ++ encEntry e, acc.idx ++ [⟨e.key, acc.data.length⟩], acc.data.length, f2⟩
            = _
        rw [ih]
        cases hx : addAll f2 (r.map Entry.key) with
        | none => rfl
        | some f =>
          show some _ = some _
          congr 1
          simp only [buildData_cons, buildIdx, buildLast, if_pos hsel, hlen]
          simp [List.append_assoc]
      · rw [if_neg hsel]
        show r.foldlM (writeStep bs)
            ⟨acc.data ++ encEntry e, acc.idx, acc.lastOff, f2⟩ = _
        rw [ih]
        cases hx : addAll f2 (r.map Entry.key) with
        | none => rfl
        | some f =>
          show some _ = some _
          congr 1
          simp only [buildData_cons, buildIdx, buildLast, if_neg hsel, hlen]
          simp [List.append_assoc]

/-- `writeTable`, solved into its four regions. -/
theorem writeTable_eq (bs fl : Nat) (es : List Entry) :
    writeTable bs fl es =
      (addAll (List.replicate fl 0) (es.map Entry.key)).map fun f =>
        buildData es ++ (beBytes 4 f.length ++ f) ++ idxBytes (buildIdx bs es 0 0) ++
          (beBytes 8 (dataLen es) ++ beBytes 8 (dataLen es + 4 + f.length)) := by
  unfold writeTable
  rw [foldlM_writeStep]
  cases haa : addAll (List.replicate fl 0) (es.map Entry.key) with
  | none => rfl
  | some f =>
    show some _ = some _
    congr 1
    show (⟨[], [], 0, f⟩ : WAcc).data ++ buildData es ++ _ ++ _ ++ _ = _
    have h0 : (([] : Bytes)).length = 0 := rfl
    rw [← length_buildData]
    simp

/-! ## Round-trip: reading back the regions -/

/-- The bounds §3 of the spec requires of a record (and that make the
fixed-width length fields faithful). -/
def ValidEntry (e : Entry) : Prop :=
  e.key.length < 2 ^ 16 ∧ e.value.length < 2 ^ 32 ∧ e.flags < 2 ^ 32

instance (e : Entry) : Decidable (ValidEntry e) :=
  inferInstanceAs (Decidable (_ ∧ _ ∧ _))

theorem sliceN_exact (a x b : Bytes) (pos n : Nat)
    (ha : a.length = pos) (hx : x.length = n) :
    sliceN (a ++ (x ++ b)) pos n = x := by
  subst ha
  subst hx
  rw [sliceN, List.drop_left, List.take_left]

theorem readAtN_exact (a x b : Bytes) (pos n : Nat)
    (ha : a.length = pos) (hx : x.length = n) :
    readAtN (a ++ (x ++ b)) pos n = some x := by
  unfold readAtN
  rw [if_pos]
  · rw [sliceN_exact a x b pos n ha hx]
  · subst ha
    subst hx
    simp [List.length_append]

theorem idxBytes_cons (ie : IdxEntry) (r : List IdxEntry) :
    idxBytes (ie :: r) =
      (beBytes 2 ie.key.length ++ ie.key ++ beBytes 8 ie.offset) ++ idxBytes r := by
  simp [idxBytes]

theorem length_le_length_idxBytes (ies : List IdxEntry) :
    ies.length ≤ (idxBytes ies).length := by
  induction ies with
  | nil => simp [idxBytes]
  | cons ie r ih =>
    rw [idxBytes_cons, List.length_append, List.length_cons]
    have : 1 ≤ (beBytes 2 ie.key.length ++ ie.key ++ beBytes 8 ie.offset).length := by
      simp [List.length_append, length_beBytes]
      omega
    omega

theorem buildIdx_mem (bs : Nat) : ∀ (rest : List Entry) (off last : Nat) (ie : IdxEntry),
    ie ∈ buildIdx bs rest off last →
    (∃ e ∈ rest, ie.key = e.key) ∧ off ≤ ie.offset ∧ ie.offset ≤ off + dataLen rest := by
  intro rest
  induction rest with
  | nil =>
    intro off last ie h
    cases h
  | cons e r ih =>
    intro off last ie h
    rw [buildIdx] at h
    by_cases hsel : off = 0 ∨ bs ≤ off - last
    · rw [if_pos hsel] at h
      rcases List.mem_cons.mp h with hh | hh
      · subst hh
        refine ⟨⟨e, List.mem_cons_self e r, rfl⟩, le_refl _, ?_⟩
        show off ≤ off + dataLen (e :: r)
        omega
      · obtain ⟨⟨e2, he2, hk⟩, h1, h2⟩ := ih (off + entrySize e) off ie hh
        exact ⟨⟨e2, List.mem_cons_of_mem e he2, hk⟩, by omega,
          by rw [dataLen_cons]; omega⟩
    · rw [if_neg hsel] at h
      obtain ⟨⟨e2, he2, hk⟩, h1, h2⟩ := ih (off + entrySize e) last ie h
      exact ⟨⟨e2, List.mem_cons_of_mem e he2, hk⟩, by omega,
        by rw [dataLen_cons]; omega⟩

/-- `readIndex` recovers exactly the sparse index the writer serialized. -/
theorem parseIdx_spec (file : Bytes) :
    ∀ (ies : List IdxEntry) (pre post : Bytes) (fuel : Nat),
      file = pre ++ (idxBytes ies ++ post) →
      (∀ ie ∈ ies, ie.key.length < 2 ^ 16 ∧ ie.offset < 2 ^ 64) →
      ies.length + 1 ≤ fuel →
      parseIdx file (pre.length + (idxBytes ies).length) fuel pre.length = some ies := by
  intro ies
  induction ies with
  | nil =>
    intro pre post fuel _ _ hfuel
    match fuel, hfuel with
    | f + 1, _ =>
      rw [parseIdx, if_pos]
      simp [idxBytes]
  | cons ie r ih =>
    intro pre post fuel hfile hvalid hfuel
    match fuel, hfuel with
    | f + 1, hfuel =>
      obtain ⟨hk16, ho64⟩ := hvalid ie (List.mem_cons_self ie r)
      have hentry : (beBytes 2 ie.key.length ++ ie.key ++ beBytes 8 ie.offset).length
          = 2 + ie.key.length + 8 := by
        simp [List.length_append, length_beBytes]
        omega
      have hfile1 : file = pre ++ (beBytes 2 ie.key.length ++ (ie.key ++
          (beBytes 8 ie.offset ++ (idxBytes r ++ post)))) := by
        rw [hfile, idxBytes_cons]
        simp [List.append_assoc]
      have hstop : pre.length + (idxBytes (ie :: r)).length
          = pre.length + (2 + ie.key.length + 8) + (idxBytes r).length := by
        rw [idxBytes_cons, List.length_append, hentry]
        omega
      rw [parseIdx, if_neg (by rw [hstop]; omega)]
      have e1 : readAtN file pre.length 2 = some (beBytes 2 ie.key.length) := by
        rw [hfile1]
        exact readAtN_exact _ _ _ _ _ rfl (length_beBytes _ _)
      have ekl : readBE (beBytes 2 ie.key.length) = ie.key.length :=
        readBE_beBytes_of_lt (by norm_num at hk16 ⊢; omega)
      have hfile2 : file = (pre ++ beBytes 2 ie.key.length) ++ (ie.key ++
          (beBytes 8 ie.offset ++ (idxBytes r ++ post))) := by
        rw [hfile1]
        simp [List.append_assoc]
      have e2 : readAtN file (pre.length + 2) ie.key.length = some ie.key := by
        rw [hfile2]
        exact readAtN_exact _ _ _ _ _
          (by rw [List.length_append, length_beBytes]) rfl
      have hfile3 : file = (pre ++ beBytes 2 ie.key.length ++ ie.key) ++
          (beBytes 8 ie.offset ++ (idxBytes r ++ post)) := by
        rw [hfile1]
        simp [List.append_assoc]
      have e3 : readAtN file (pre.length + 2 + ie.key.length) 8
          = some (beBytes 8 ie.offset) := by
        rw [hfile3]
        exact readAtN_exact _ _ _ _ _
          (by simp [List.length_append, length_beBytes]; omega) (length_beBytes _ _)
      have hfile4 : file = (pre ++ beBytes 2 ie.key.length ++ ie.key ++ beBytes 8 ie.offset)
          ++ (idxBytes r ++ post) := by
        rw [hfile1]
        simp [List.append_assoc]
      have hprelen : (pre ++ beBytes 2 ie.key.length ++ ie.key ++ beBytes 8 ie.offset).length
          = pre.length + 2 + ie.key.length + 8 := by
        simp [List.length_append, length_beBytes]
        omega
      have e4 : parseIdx file (pre.length + (idxBytes (ie :: r)).length) f
          (pre.length + 2 + ie.key.length + 8) = some r := by
        have := ih (pre ++ beBytes 2 ie.key.length ++ ie.key ++ beBytes 8 ie.offset) post f
          hfile4 (fun x hx => hvalid x (List.mem_cons_of_mem ie hx))
          (by simp only [List.length_cons] at hfuel; omega)
        rw [hprelen] at this
        rw [hstop]
        have harr : pre.length + 2 + ie.key.length + 8 + (idxBytes r).length
            = pre.length + (2 + ie.key.length + 8) + (idxBytes r).length := by omega
        rw [← harr]
        exact this
      have eo : readBE (beBytes 8 ie.offset) = ie.offset :=
        readBE_beBytes_of_lt (by norm_num at ho64 ⊢; omega)
      simp only [e1, ekl, e2, e3, e4, eo]

/-- Opening a file the writer produced recovers the filter, the sparse
index, and `bloomStart` exactly. -/
theorem openTable_writeTable {bs fl : Nat} {es : List Entry} {file : Bytes}
    (hw : writeTable bs fl es = some file)
    (hval : ∀ e ∈ es, ValidEntry e)
    (hfl32 : fl < 2 ^ 32)
    (hlen : file.length ≤ 2 ^ 63) :
    ∃ f, addAll (List.replicate fl 0) (es.map Entry.key) = some f ∧
      f.length = fl ∧
      openTable file = some ⟨f, buildIdx bs es 0 0, dataLen es, file⟩ := by
  rw [writeTable_eq] at hw
  cases haa : addAll (List.replicate fl 0) (es.map Entry.key) with
  | none => rw [haa] at hw; cases hw
  | some f =>
    rw [haa] at hw
    have hflen : f.length = fl := (addAll_length haa).trans (List.length_replicate fl 0)
    have hfile : file = buildData es ++ (beBytes 4 fl ++ f) ++
        idxBytes (buildIdx bs es 0 0) ++
        (beBytes 8 (dataLen es) ++ beBytes 8 (dataLen es + 4 + fl)) := by
      have h2 := hw
      rw [Option.map_some'] at h2
      have h3 := Option.some.inj h2
      rw [← h3, hflen]
    refine ⟨f, rfl, hflen, ?_⟩
    have hDlen : (buildData es).length = dataLen es := length_buildData es
    have hlenfile : file.length = dataLen es + 4 + fl +
        (idxBytes (buildIdx bs es 0 0)).length + 16 := by
      rw [hfile]
      simp [List.length_append, length_beBytes, hDlen]
      try omega
    have hdL63 : dataLen es < 2 ^ 63 := by omega
    have hix63 : dataLen es + 4 + fl < 2 ^ 63 := by omega
    have hc1 : ¬ file.length < 16 := by omega
    have s1 : sliceN file (file.length - 16) 8 = beBytes 8 (dataLen es) := by
      have hg : file = (buildData es ++ (beBytes 4 fl ++ f) ++
          idxBytes (buildIdx bs es 0 0)) ++
          (beBytes 8 (dataLen es) ++ beBytes 8 (dataLen es + 4 + fl)) := by
        rw [hfile]
        try simp [List.append_assoc]
      rw [hg]
      apply sliceN_exact
      · simp [List.length_append, length_beBytes, hDlen, hflen]
        try omega
      · exact length_beBytes 8 _
    have rB : readBE (beBytes 8 (dataLen es)) = dataLen es :=
      readBE_beBytes_of_lt (by norm_num; omega)
    have hc2 : ¬ 2 ^ 63 ≤ dataLen es := by omega
    have s2 : readAtN file (dataLen es) 4 = some (beBytes 4 fl) := by
      have hg : file = buildData es ++ (beBytes 4 fl ++ (f ++
          (idxBytes (buildIdx bs es 0 0) ++
            (beBytes 8 (dataLen es) ++ beBytes 8 (dataLen es + 4 + fl))))) := by
        rw [hfile]
        try simp [List.append_assoc]
      rw [hg]
      exact readAtN_exact _ _ _ _ _ hDlen (length_beBytes 4 fl)
    have rF4 : readBE (beBytes 4 fl) = fl := readBE_beBytes_of_lt (by norm_num; omega)
    have s3 : readAtN file (dataLen es + 4) fl = some f := by
      have hg : file = (buildData es ++ beBytes 4 fl) ++ (f ++
          (idxBytes (buildIdx bs es 0 0) ++
            (beBytes 8 (dataLen es) ++ beBytes 8 (dataLen es + 4 + fl)))) := by
        rw [hfile]
        try simp [List.append_assoc]
      rw [hg]
      exact readAtN_exact _ _ _ _ _
        (by rw [List.length_append, length_beBytes, hDlen]) hflen
    have s4 : sliceN file (file.length - 8) 8 = beBytes 8 (dataLen es + 4 + fl) := by
      have hg : file = (buildData es ++ (beBytes 4 fl ++ f) ++
          idxBytes (buildIdx bs es 0 0) ++ beBytes 8 (dataLen es)) ++
          (beBytes 8 (dataLen es + 4 + fl) ++ ([] : Bytes)) := by
        rw [hfile]
        try simp [List.append_assoc]
      rw [hg]
      apply sliceN_exact
      · simp [List.length_append, length_beBytes, hDlen, hflen]
        try omega
      · exact length_beBytes 8 _
    have rIx : readBE (beBytes 8 (dataLen es + 4 + fl)) = dataLen es + 4 + fl :=
      readBE_beBytes_of_lt (by norm_num; omega)
    have hc3 : ¬ 2 ^ 63 ≤ dataLen es + 4 + fl := by omega
    have s5 : parseIdx file (file.length - 16) (file.length + 1) (dataLen es + 4 + fl)
        = some (buildIdx bs es 0 0) := by
      have hg : file = (buildData es ++ (beBytes 4 fl ++ f)) ++
          (idxBytes (buildIdx bs es 0 0) ++
            (beBytes 8 (dataLen es) ++ beBytes 8 (dataLen es + 4 + fl))) := by
        rw [hfile]
        try simp [List.append_assoc]
      have hvalid : ∀ ie ∈ buildIdx bs es 0 0,
          ie.key.length < 2 ^ 16 ∧ ie.offset < 2 ^ 64 := by
        intro ie hie
        obtain ⟨⟨e, hees, hkey⟩, _, hoff⟩ := buildIdx_mem bs es 0 0 ie hie
        refine ⟨?_, ?_⟩
        · rw [hkey]
          exact (hval e hees).1
        · have : ie.offset ≤ dataLen es := by omega
          have h64 : (2 : ℕ) ^ 63 < 2 ^ 64 := by norm_num
          omega
      have hfuel : (buildIdx bs es 0 0).length + 1 ≤ file.length + 1 := by
        have h1 := length_le_length_idxBytes (buildIdx bs es 0 0)
        omega
      have := parseIdx_spec file (buildIdx bs es 0 0)
        (buildData es ++ (beBytes 4 fl ++ f))
        (beBytes 8 (dataLen es) ++ beBytes 8 (dataLen es + 4 + fl))
        (file.length + 1) hg hvalid hfuel
      have hpre : (buildData es ++ (beBytes 4 fl ++ f)).length = dataLen es + 4 + fl := by
        simp [List.length_append, length_beBytes, hDlen, hflen]
        try omega
      rw [hpre] at this
      have hstop : dataLen es + 4 + fl + (idxBytes (buildIdx bs es 0 0)).length
          = file.length - 16 := by omega
      rw [hstop] at this
      exact this
    rw [openTable, if_neg hc1]
    simp only [s1, rB, rF4, s2, s3, s4, rIx, s5, if_neg hc2, if_neg hc3]

/-! ## Round-trip: the sparse-index binary search -/

theorem sortSearchAux_spec (f : Nat → Bool) (n : Nat)
    (mono : ∀ a b, a ≤ b → b < n → f a = true → f b = true) :
    ∀ fuel i j, i ≤ j → j ≤ n → j - i ≤ fuel →
      (∀ q, q < i → f q = false) → (∀ q, j ≤ q → q < n → f q = true) →
      i ≤ sortSearchAux f fuel i j ∧ sortSearchAux f fuel i j ≤ j ∧
      (∀ q, q < sortSearchAux f fuel i j → f q = false) ∧
      (sortSearchAux f fuel i j < n → f (sortSearchAux f fuel i j) = true) := by
  intro fuel
  induction fuel with
  | zero =>
    intro i j hij hjn hfuel hlow hhigh
    have heq : i = j := by omega
    subst heq
    rw [sortSearchAux]
    exact ⟨le_refl _, le_refl _, hlow, fun hn => hhigh i (le_refl _) hn⟩
  | succ fuel ih =>
    intro i j hij hjn hfuel hlow hhigh
    rw [sortSearchAux]
    by_cases hij2 : i < j
    · rw [if_pos hij2]
      cases hf : f ((i + j) / 2) with
      | true =>
        simp only [hf, eq_self_iff_true, if_true]
        have := ih i ((i + j) / 2) (by omega) (by omega) (by omega) hlow ?_
        · exact ⟨this.1, le_trans this.2.1 (by omega), this.2.2⟩
        · intro q hq hqn
          rcases Nat.eq_or_lt_of_le hq with heq | hlt
          · rw [← heq]
            exact hf
          · exact mono _ q (by omega) hqn hf
      | false =>
        simp only [hf, Bool.false_eq_true, if_false]
        have := ih ((i + j) / 2 + 1) j (by omega) hjn (by omega) ?_ hhigh
        · exact ⟨le_trans (by omega) this.1, this.2.1, this.2.2⟩
        · intro q hq
          cases hfq : f q with
          | false => rfl
          | true =>
            have hcontra := mono q ((i + j) / 2) (by omega) (by omega) hfq
            rw [hcontra] at hf
            cases hf
    · rw [if_neg hij2]
      have heq : i = j := by omega
      subst heq
      exact ⟨le_refl _, le_refl _, hlow, fun hn => hhigh i (le_refl _) hn⟩

/-- `sort.Search(n, f)` with a predicate monotone on `[0, n)`: every index
below the result fails, and the result (when below `n`) succeeds — i.e. the
least satisfying index, or `n`. -/
theorem sortSearch_spec (f : Nat → Bool) (n : Nat)
    (mono : ∀ a b, a ≤ b → b < n → f a = true → f b = true) :
    sortSearch n f ≤ n ∧
    (∀ q, q < sortSearch n f → f q = false) ∧
    (sortSearch n f < n → f (sortSearch n f) = true) := by
  have := sortSearchAux_spec f n mono n 0 n (Nat.zero_le n) (le_refl n)
    (by omega) (fun q hq => absurd hq (Nat.not_lt_zero q))
    (fun q hq hqn => absurd (lt_of_le_of_lt hq hqn) (lt_irrefl n))
  exact ⟨this.2.1, this.2.2.1, this.2.2.2⟩

/-! ## Round-trip: the block walk -/

/-- What the block walk computes, stated over the decoded records: first
record with the search key; stop early at the first larger key. -/
def specScan (k : Bytes) : List Entry → Option (Bytes × Nat × Bool)
  | [] => none
  | e :: r =>
    if e.key == k then some (e.value, e.flags, e.tomb)
    else if bytesLt k e.key then none
    else specScan k r

theorem scanBlock_spec (k : Bytes) :
    ∀ (ds : List Entry) (pre : Bytes) (fuel : Nat),
      ds.length + 1 ≤ fuel →
      (∀ e ∈ ds, ValidEntry e) →
      scanBlock (pre ++ buildData ds) k fuel pre.length = some (specScan k ds) := by
  intro ds
  induction ds with
  | nil =>
    intro pre fuel hfuel _
    match fuel, hfuel with
    | f + 1, _ =>
      rw [scanBlock, if_pos]
      · rfl
      · simp [buildData]
  | cons e r ih =>
    intro pre fuel hfuel hvalid
    match fuel, hfuel with
    | f + 1, hfuel =>
      obtain ⟨hk16, hv32, hf32⟩ := hvalid e (List.mem_cons_self e r)
      have hsz : (encEntry e).length = 12 + e.key.length + e.value.length :=
        length_encEntry e
      have hbuf : (pre ++ buildData (e :: r)).length
          = pre.length + (12 + e.key.length + e.value.length) + (buildData r).length := by
        rw [buildData_cons]
        simp [List.length_append, hsz]
        omega
      have hg0 : pre ++ buildData (e :: r) = pre ++ (encEntry e ++ buildData r) := by
        rw [buildData_cons]
      have g1 : pre ++ buildData (e :: r) = pre ++ (beBytes 2 e.key.length ++
          (beBytes 4 e.value.length ++ (beBytes 4 e.flags ++
          (beBytes 2 (if e.tomb then 1 else 0) ++ (e.key ++
          (e.value ++ buildData r)))))) := by
        rw [hg0, encEntry]
        simp [List.append_assoc]
      have sl1 : sliceN (pre ++ buildData (e :: r)) pre.length 2
          = beBytes 2 e.key.length := by
        rw [g1]
        exact sliceN_exact _ _ _ _ _ rfl (length_beBytes _ _)
      have sl2 : sliceN (pre ++ buildData (e :: r)) (pre.length + 2) 4
          = beBytes 4 e.value.length := by
        rw [g1, show pre ++ (beBytes 2 e.key.length ++
            (beBytes 4 e.value.length ++ (beBytes 4 e.flags ++
            (beBytes 2 (if e.tomb then 1 else 0) ++ (e.key ++ (e.value ++ buildData r))))))
            = (pre ++ beBytes 2 e.key.length) ++ (beBytes 4 e.value.length ++
              (beBytes 4 e.flags ++ (beBytes 2 (if e.tomb then 1 else 0) ++
              (e.key ++ (e.value ++ buildData r))))) from by simp [List.append_assoc]]
        exact sliceN_exact _ _ _ _ _
          (by simp [List.length_append, length_beBytes]) (length_beBytes _ _)
      have sl3 : sliceN (pre ++ buildData (e :: r)) (pre.length + 6) 4
          = beBytes 4 e.flags := by
        rw [g1, show pre ++ (beBytes 2 e.key.length ++
            (beBytes 4 e.value.length ++ (beBytes 4 e.flags ++
            (beBytes 2 (if e.tomb then 1 else 0) ++ (e.key ++ (e.value ++ buildData r))))))
            = (pre ++ beBytes 2 e.key.length ++ beBytes 4 e.value.length) ++
              (beBytes 4 e.flags ++ (beBytes 2 (if e.tomb then 1 else 0) ++
              (e.key ++ (e.value ++ buildData r)))) from by simp [List.append_assoc]]
        exact sliceN_exact _ _ _ _ _
          (by simp [List.length_append, length_beBytes]; try omega) (length_beBytes _ _)
      have sl4 : sliceN (pre ++ buildData (e :: r)) (pre.length + 10) 2
          = beBytes 2 (if e.tomb then 1 else 0) := by
        rw [g1, show pre ++ (beBytes 2 e.key.length ++
            (beBytes 4 e.value.length ++ (beBytes 4 e.flags ++
            (beBytes 2 (if e.tomb then 1 else 0) ++ (e.key ++ (e.value ++ buildData r))))))
            = (pre ++ beBytes 2 e.key.length ++ beBytes 4 e.value.length ++
              beBytes 4 e.flags) ++ (beBytes 2 (if e.tomb then 1 else 0) ++
              (e.key ++ (e.value ++ buildData r))) from by simp [List.append_assoc]]
        exact sliceN_exact _ _ _ _ _
          (by simp [List.length_append, length_beBytes]; try omega) (length_beBytes _ _)
      have sl5 : sliceN (pre ++ buildData (e :: r)) (pre.length + 12) e.key.length
          = e.key := by
        rw [g1, show pre ++ (beBytes 2 e.key.length ++
            (beBytes 4 e.value.length ++ (beBytes 4 e.flags ++
            (beBytes 2 (if e.tomb then 1 else 0) ++ (e.key ++ (e.value ++ buildData r))))))
            = (pre ++ beBytes 2 e.key.length ++ beBytes 4 e.value.length ++
              beBytes 4 e.flags ++ beBytes 2 (if e.tomb then 1 else 0)) ++
              (e.key ++ (e.value ++ buildData r)) from by simp [List.append_assoc]]
        exact sliceN_exact _ _ _ _ _
          (by simp [List.length_append, length_beBytes]; try omega) rfl
      have sl6 : sliceN (pre ++ buildData (e :: r)) (pre.length + 12 + e.key.length)
          e.value.length = e.value := by
        rw [g1, show pre ++ (beBytes 2 e.key.length ++
            (beBytes 4 e.value.length ++ (beBytes 4 e.flags ++
            (beBytes 2 (if e.tomb then 1 else 0) ++ (e.key ++ (e.value ++ buildData r))))))
            = (pre ++ beBytes 2 e.key.length ++ beBytes 4 e.value.length ++
              beBytes 4 e.flags ++ beBytes 2 (if e.tomb then 1 else 0) ++ e.key) ++
              (e.value ++ buildData r) from by simp [List.append_assoc]]
        exact sliceN_exact _ _ _ _ _
          (by simp [List.length_append, length_beBytes]; try omega) rfl
      have rkl : readBE (beBytes 2 e.key.length) = e.key.length :=
        readBE_beBytes_of_lt (by norm_num at hk16 ⊢; omega)
      have rvl : readBE (beBytes 4 e.value.length) = e.value.length :=
        readBE_beBytes_of_lt (by norm_num at hv32 ⊢; omega)
      have rfg : readBE (beBytes 4 e.flags) = e.flags :=
        readBE_beBytes_of_lt (by norm_num at hf32 ⊢; omega)
      have rtb : readBE (beBytes 2 (if e.tomb then 1 else 0)) = (if e.tomb then 1 else 0) :=
        readBE_beBytes_of_lt (by cases e.tomb <;> norm_num)
      have rtb2 : ((if e.tomb then 1 else 0 : Nat) == 1) = e.tomb := by
        cases e.tomb <;> rfl
      rw [scanBlock,
        if_neg (by rw [hbuf]; omega),
        if_neg (by rw [hbuf]; omega)]
      simp only [sl1, sl2, sl3, sl4, sl5, sl6, rkl, rvl, rfg, rtb, rtb2]
      rw [if_neg (by rw [hbuf]; omega)]
      by_cases hkeq : e.key = k
      · rw [if_pos (by simp [hkeq]),
          if_neg (by rw [hbuf]; omega)]
        rw [specScan, if_pos (by simp [hkeq])]
      · rw [if_neg (by simp [hkeq])]
        cases hlt : bytesLt k e.key with
        | true =>
          rw [if_pos rfl]
          rw [specScan, if_neg (by simp [hkeq]), if_pos hlt]
        | false =>
          rw [if_neg (by exact Bool.false_ne_true)]
          rw [specScan, if_neg (by simp [hkeq]), if_neg (by rw [hlt]; exact Bool.false_ne_true)]
          have hrec := ih (pre ++ encEntry e) f
            (by simp only [List.length_cons] at hfuel; omega)
            (fun x hx => hvalid x (List.mem_cons_of_mem e hx))
          have happ : (pre ++ encEntry e) ++ buildData r = pre ++ buildData (e :: r) := by
            rw [buildData_cons]
            simp [List.append_assoc]
          have hpos : (pre ++ encEntry e).length = pre.length + 12 + e.key.length
              + e.value.length := by
            rw [List.length_append, hsz]
            omega
          rw [happ, hpos] at hrec
          exact hrec

/-! ## Sorted-chain lookup facts -/

theorem sortedE_head_lt {e : Entry} {r : List Entry} (h : SortedE (e :: r)) :
    ∀ x ∈ r, bytesLt e.key x.key = true := by
  induction r generalizing e with
  | nil =>
    intro x hx
    cases hx
  | cons y ys ih =>
    intro x hx
    have h1 : bytesLt e.key y.key = true := (List.chain'_cons.mp h).1
    rcases List.mem_cons.mp hx with hxy | hxy
    · rw [hxy]
      exact h1
    · exact bytesLt_trans h1 (ih (List.chain'_cons.mp h).2 x hxy)

theorem sortedE_tail {e : Entry} {r : List Entry} (h : SortedE (e :: r)) : SortedE r :=
  (List.chain'_cons'.mp h).2

theorem specScan_eq_lookup (k : Bytes) :
    ∀ ds : List Entry, SortedE ds → specScan k ds = entriesLookup k ds := by
  intro ds
  induction ds with
  | nil =>
    intro _
    rfl
  | cons e r ih =>
    intro hsort
    by_cases hkeq : e.key = k
    · rw [specScan, if_pos (by simp [hkeq]), entriesLookup,
        List.find?_cons_of_pos _ (by simp [hkeq]), Option.map_some']
    · cases hlt : bytesLt k e.key with
      | true =>
        rw [specScan, if_neg (by simp [hkeq]), if_pos hlt, entriesLookup,
          List.find?_cons_of_neg _ (by simp [hkeq])]
        have hnone : r.find? (fun x => x.key == k) = none := by
          rw [List.find?_eq_none]
          intro x hx
          simp only [beq_iff_eq]
          intro hxk
          have h1 := sortedE_head_lt hsort x hx
          have h2 := bytesLt_trans hlt h1
          rw [hxk] at h2
          rw [bytesLt_irrefl] at h2
          cases h2
        rw [hnone]
        rfl
      | false =>
        rw [specScan, if_neg (by simp [hkeq]),
          if_neg (by rw [hlt]; exact Bool.false_ne_true),
          ih (sortedE_tail hsort), entriesLookup, entriesLookup,
          List.find?_cons_of_neg _ (by simp [hkeq])]

/-- On a sorted chain, the record holding `k` (if any) is what
`entriesLookup` returns. -/
theorem entriesLookup_of_mem {es : List Entry} {e : Entry} (hsort : SortedE es)
    (hmem : e ∈ es) (hkey : e.key = k) :
    entriesLookup k es = some (e.value, e.flags, e.tomb) := by
  induction es with
  | nil => cases hmem
  | cons x xs ih =>
    rcases List.mem_cons.mp hmem with hex | hex
    · subst hex
      rw [entriesLookup, List.find?_cons_of_pos _ (by simp [hkey]), Option.map_some']
    · have hlt := sortedE_head_lt hsort e hex
      have hxk : ¬ x.key = k := by
        intro hc
        rw [hkey, ← hc] at hlt
        rw [bytesLt_irrefl] at hlt
        cases hlt
      rw [entriesLookup, List.find?_cons_of_neg _ (by simp [hxk])]
      exact ih (sortedE_tail hsort) hex

theorem entriesLookup_none_of_forall {es : List Entry}
    (h : ∀ e ∈ es, ¬ e.key = k) : entriesLookup k es = none := by
  rw [entriesLookup, List.find?_eq_none.mpr]
  · rfl
  · intro x hx
    simp only [beq_iff_eq]
    exact h x hx

theorem entriesLookup_none_mem {es : List Entry} (h : entriesLookup k es = none) :
    ∀ e ∈ es, ¬ e.key = k := by
  intro e he hk
  rw [entriesLookup] at h
  cases hf : es.find? (fun x => x.key == k) with
  | none =>
    rw [List.find?_eq_none] at hf
    exact hf e he (by simp [hk])
  | some x =>
    rw [hf] at h
    cases h

/-! ## Round-trip: the sparse index as a selection of chain positions -/

/-- The index entries corresponding to a list of chain positions. -/
def idxOfPs (es : List Entry) (ps : List Nat) : List IdxEntry :=
  ps.map fun p => ⟨(es.getD p default).key, offAt es p⟩

theorem buildIdx_shape (bs : Nat) (es0 : List Entry) :
    ∀ (rest : List Entry) (p lastOff : Nat),
      rest = es0.drop p → p ≤ es0.length →
      ∃ ps : List Nat,
        buildIdx bs rest (offAt es0 p) lastOff = idxOfPs es0 ps ∧
        List.Chain' (· < ·) ps ∧
        (∀ q ∈ ps, p ≤ q ∧ q < es0.length) ∧
        ((offAt es0 p = 0 ∨ bs ≤ offAt es0 p - lastOff) → p < es0.length →
          ps.head? = some p) := by
  intro rest
  induction rest with
  | nil =>
    intro p lastOff hrest hp
    refine ⟨[], rfl, List.chain'_nil, fun q hq => absurd hq (List.not_mem_nil q), ?_⟩
    intro _ hplen
    have : es0.drop p ≠ [] := by
      intro hc
      rw [List.drop_eq_nil_iff] at hc
      omega
    exact absurd hrest.symm this
  | cons e r ih =>
    intro p lastOff hrest hp
    have hplen : p < es0.length := by
      by_contra hc
      rw [List.drop_eq_nil_of_le (by omega)] at hrest
      cases hrest
    have hdec : es0.drop p = es0[p] :: es0.drop (p + 1) :=
      List.drop_eq_getElem_cons hplen
    rw [hdec] at hrest
    have he : e = es0[p] := ((List.cons.inj hrest.symm).1).symm
    have hr : r = es0.drop (p + 1) := ((List.cons.inj hrest.symm).2).symm
    have hgd : es0.getD p default = e := by
      rw [List.getD_eq_getElem?_getD, List.getElem?_eq_getElem hplen, he]
      rfl
    have hoff1 : offAt es0 p + entrySize e = offAt es0 (p + 1) := by
      rw [offAt_succ es0 p hplen, hgd]
    by_cases hsel : offAt es0 p = 0 ∨ bs ≤ offAt es0 p - lastOff
    · obtain ⟨ps2, hbuild, hchain, hmem, _⟩ :=
        ih (p + 1) (offAt es0 p) (by rw [hr]) (by omega)
      refine ⟨p :: ps2, ?_, ?_, ?_, ?_⟩
      · rw [buildIdx, if_pos hsel, hoff1, hbuild]
        show _ = (⟨(es0.getD p default).key, offAt es0 p⟩ : IdxEntry) :: idxOfPs es0 ps2
        rw [hgd]
      · rw [List.chain'_cons']
        exact ⟨fun y hy => by have := hmem y (List.mem_of_mem_head? hy); omega, hchain⟩
      · intro q hq
        rcases List.mem_cons.mp hq with hq2 | hq2
        · subst hq2
          exact ⟨le_refl _, hplen⟩
        · have := hmem q hq2
          exact ⟨by omega, this.2⟩
      · intro _ _
        rfl
    · obtain ⟨ps2, hbuild, hchain, hmem, _⟩ :=
        ih (p + 1) lastOff (by rw [hr]) (by omega)
      refine ⟨ps2, ?_, hchain, ?_, ?_⟩
      · rw [buildIdx, if_neg hsel, hoff1, hbuild]
      · intro q hq
        have := hmem q hq
        exact ⟨by omega, this.2⟩
      · intro hcond _
        exact absurd hcond hsel

/-! ## Round-trip: slicing blocks out of the data region -/

theorem buildData_append (l1 l2 : List Entry) :
    buildData (l1 ++ l2) = buildData l1 ++ buildData l2 := by
  simp [buildData]

theorem sliceN_left (x y : Bytes) (pos n : Nat) (h : pos + n ≤ x.length) :
    sliceN (x ++ y) pos n = sliceN x pos n := by
  unfold sliceN
  rw [List.drop_append_of_le_length (by omega),
    List.take_append_of_le_length (by simp [List.length_drop]; omega)]

theorem offAt_length (es : List Entry) : offAt es es.length = dataLen es := by
  unfold offAt
  rw [List.take_length]

/-- The bytes between two entry offsets are exactly the encodings of the
entries in between. -/
theorem sliceN_buildData (es : List Entry) (a b : Nat) (hab : a ≤ b)
    (hb : b ≤ es.length) :
    sliceN (buildData es) (offAt es a) (offAt es b - offAt es a)
      = buildData ((es.drop a).take (b - a)) := by
  have hsplit : es = es.take a ++ es.drop a := (List.take_append_drop a es).symm
  have hmid : es.drop a = (es.drop a).take (b - a) ++ es.drop b := by
    have h1 : (es.drop a).drop (b - a) = es.drop b := by
      rw [List.drop_drop]
      congr 1
      omega
    rw [← h1, List.take_append_drop]
  have htake : es.take b = es.take a ++ (es.drop a).take (b - a) := by
    have h2 : List.take (a + (b - a)) es
        = List.take a es ++ List.take (b - a) (List.drop a es) :=
      List.take_add es a (b - a)
    rw [show a + (b - a) = b by omega] at h2
    exact h2
  have hdl : dataLen ((es.drop a).take (b - a)) = offAt es b - offAt es a := by
    unfold offAt
    have h3 : dataLen (es.take b) = dataLen (es.take a) +
        dataLen ((es.drop a).take (b - a)) := by
      rw [htake, dataLen_append]
    omega
  calc sliceN (buildData es) (offAt es a) (offAt es b - offAt es a)
      = sliceN (buildData (es.take a) ++ buildData (es.drop a))
          (offAt es a) (offAt es b - offAt es a) := by
        rw [← buildData_append, ← hsplit]
    _ = buildData ((es.drop a).take (b - a)) := by
        unfold sliceN
        rw [List.drop_left' (by rw [length_buildData]; rfl)]
        conv_lhs => rw [show buildData (es.drop a)
            = buildData ((es.drop a).take (b - a)) ++ buildData (es.drop b) from by
          rw [← buildData_append, ← hmid]]
        rw [List.take_left' (by rw [length_buildData, hdl])]

theorem getD_eq_getElem {α : Type} [Inhabited α] {l : List α} {j : Nat}
    (h : j < l.length) : l.getD j default = l[j] := by
  rw [List.getD_eq_getElem?_getD, List.getElem?_eq_getElem h]
  rfl

theorem length_le_dataLen (es : List Entry) : es.length ≤ dataLen es := by
  induction es with
  | nil => simp [dataLen]
  | cons e r ih =>
    rw [dataLen_cons, List.length_cons]
    unfold entrySize
    omega

theorem sortedE_getElem_lt {es : List Entry} (hsort : SortedE es) :
    ∀ i j : Nat, (hij : i < j) → (hj : j < es.length) →
      bytesLt (es.get ⟨i, lt_trans hij hj⟩).key (es.get ⟨j, hj⟩).key = true := by
  induction es with
  | nil =>
    intro i j hij hj
    simp at hj
  | cons e r ih =>
    intro i j hij hj
    match i, j with
    | 0, j2 + 1 =>
      show bytesLt e.key (r.get ⟨j2, by simpa using hj⟩).key = true
      exact sortedE_head_lt hsort _ (List.get_mem r _ _)
    | i2 + 1, j2 + 1 =>
      have hj2 : j2 < r.length := by simpa using hj
      show bytesLt (r.get ⟨i2, lt_trans (by omega) hj2⟩).key
        (r.get ⟨j2, hj2⟩).key = true
      exact ih (sortedE_tail hsort) i2 j2 (by omega) hj2

theorem chainLt_getElem {ps : List Nat} (h : List.Chain' (· < ·) ps) :
    ∀ i j : Nat, (hij : i < j) → (hj : j < ps.length) →
      ps.get ⟨i, lt_trans hij hj⟩ < ps.get ⟨j, hj⟩ := by
  intro i j hij hj
  exact List.pairwise_iff_getElem.mp
    ((List.chain'_iff_pairwise).mp h) i j (lt_trans hij hj) hj hij

theorem readAtN_block (es : List Entry) (rest : Bytes) (a q : Nat)
    (haq : a ≤ q) (hq : q ≤ es.length) :
    readAtN (buildData es ++ rest) (offAt es a) (offAt es q - offAt es a)
      = some (buildData ((es.drop a).take (q - a))) := by
  have hmono := @offAt_mono es _ _ haq
  have hql : offAt es q ≤ dataLen es := by
    have h2 := @offAt_mono es _ _ hq
    rw [offAt_length] at h2
    exact h2
  unfold readAtN
  rw [if_pos]
  · rw [sliceN_left _ _ _ _ (by rw [length_buildData]; omega),
      sliceN_buildData es a q haq hq]
  · rw [List.length_append, length_buildData]
    omega

theorem getD_replicate_zero (n j : Nat) : (List.replicate n (0 : Nat)).getD j 0 = 0 := by
  rw [List.getD_eq_getElem?_getD, List.getElem?_replicate]
  split <;> rfl

theorem block_scan_lookup (es : List Entry) (hsort : SortedE es)
    (hval : ∀ e ∈ es, ValidEntry e) (a q : Nat) (haq : a ≤ q) (hq : q ≤ es.length)
    (k : Bytes) :
    scanBlock (buildData ((es.drop a).take (q - a))) k
      ((buildData ((es.drop a).take (q - a))).length + 1) 0
      = some (entriesLookup k ((es.drop a).take (q - a))) := by
  have hvmid : ∀ e ∈ (es.drop a).take (q - a), ValidEntry e := fun e he =>
    hval e (List.mem_of_mem_drop (List.mem_of_mem_take he))
  have hsmid : SortedE ((es.drop a).take (q - a)) := by
    unfold SortedE at hsort ⊢
    exact (hsort.drop a).take _
  have hfuel : ((es.drop a).take (q - a)).length + 1
      ≤ (buildData ((es.drop a).take (q - a))).length + 1 := by
    rw [length_buildData]
    have := length_le_dataLen ((es.drop a).take (q - a))
    omega
  have hmain := scanBlock_spec k ((es.drop a).take (q - a)) [] _ hfuel hvmid
  rw [List.nil_append] at hmain
  rw [show (([] : Bytes)).length = 0 from rfl] at hmain
  rw [hmain, specScan_eq_lookup k _ hsmid]

/-- Key at a chain position (out-of-range positions give the default
entry; all uses are in range). -/
def keyAt (es : List Entry) (p : Nat) : Bytes := (es.getD p default).key

theorem getD_zero_eq_getElem {ps : List Nat} {j : Nat} (h : j < ps.length) :
    ps.getD j 0 = ps[j] := by
  rw [List.getD_eq_getElem?_getD, List.getElem?_eq_getElem h]
  rfl

theorem keyAt_lt {es : List Entry} (hsort : SortedE es) {p p2 : Nat}
    (hpp : p < p2) (hp2 : p2 < es.length) :
    bytesLt (keyAt es p) (keyAt es p2) = true := by
  unfold keyAt
  rw [getD_eq_getElem (lt_trans hpp hp2), getD_eq_getElem hp2]
  exact sortedE_getElem_lt hsort p p2 hpp hp2

theorem chainLt_getD {ps : List Nat} (h : List.Chain' (· < ·) ps) {j j2 : Nat}
    (hjj : j < j2) (hj2 : j2 < ps.length) : ps.getD j 0 < ps.getD j2 0 := by
  rw [getD_zero_eq_getElem (lt_trans hjj hj2), getD_zero_eq_getElem hj2]
  exact chainLt_getElem h j j2 hjj hj2

/-- `SSTable.Get` on a table opened from a file the writer produced computes
exactly the chain lookup, for every search key — present keys return their
written record (filter false positives included), absent keys return
not-found. -/
theorem tableGet_writeTable {bs fl : Nat} {es : List Entry} {file f : Bytes}
    (hw : writeTable bs fl es = some file)
    (haa : addAll (List.replicate fl 0) (es.map Entry.key) = some f)
    (hsort : SortedE es) (hval : ∀ e ∈ es, ValidEntry e)
    (hfl8 : fl * 8 < 2 ^ 32) (k : Bytes) :
    tableGet ⟨f, buildIdx bs es 0 0, dataLen es, file⟩ k
      = some (entriesLookup k es) := by
  have hflen : f.length = fl := (addAll_length haa).trans (List.length_replicate fl 0)
  have hfile : ∃ rest, file = buildData es ++ rest := by
    rw [writeTable_eq, haa, Option.map_some'] at hw
    refine ⟨(beBytes 4 f.length ++ f) ++ (idxBytes (buildIdx bs es 0 0) ++
      (beBytes 8 (dataLen es) ++ beBytes 8 (dataLen es + 4 + f.length))), ?_⟩
    rw [← Option.some.inj hw]
    simp [List.append_assoc]
  obtain ⟨rest, hfile⟩ := hfile
  by_cases hes : es = []
  · -- Empty chain: empty index, never found.
    subst hes
    have hfrep : f = List.replicate fl 0 := by
      unfold addAll at haa
      rw [List.map_nil, List.foldlM_nil] at haa
      exact (Option.some.inj haa).symm
    subst hfrep
    by_cases hfl0 : fl = 0
    · subst hfl0
      rfl
    · have hm : bloomM (List.replicate fl 0) ≠ 0 := by
        unfold bloomM
        rw [List.length_replicate, Nat.mod_eq_of_lt hfl8]
        omega
      have hlenne : (List.replicate fl 0 : Bytes).length ≠ 0 := by
        rw [List.length_replicate]
        exact hfl0
      have hprobe : ∀ i : Nat, probeBit (List.replicate fl 0)
          (bloomPos (bloomM (List.replicate fl 0)) k i) = false := by
        intro i
        unfold probeBit
        rw [getD_replicate_zero, Nat.zero_and]
        rfl
      have hcv : ((List.range 4).all fun i => probeBit (List.replicate fl 0)
          (bloomPos (bloomM (List.replicate fl 0)) k i)) = false := by
        rw [List.all_eq_false]
        exact ⟨0, by norm_num, by rw [hprobe]; exact Bool.false_ne_true⟩
      have hcs : bloomContains (List.replicate fl 0) k = some false := by
        unfold bloomContains
        rw [if_neg hlenne, if_neg hm, hcv]
      simp only [tableGet, hcs]
      rfl
  · -- Non-empty chain.
    obtain ⟨e0, es2, hcons⟩ := List.exists_cons_of_ne_nil hes
    have hm0 : bloomM (List.replicate fl 0) ≠ 0 := by
      rw [hcons] at haa
      unfold addAll at haa
      rw [List.map_cons, List.foldlM_cons] at haa
      cases hx : bloomAdd (List.replicate fl 0) e0.key with
      | none => rw [hx] at haa; cases haa
      | some f1 => exact bloomM_pos_of_add hx
    have hmf : bloomM f ≠ 0 := by
      unfold bloomM at hm0 ⊢
      rw [hflen, ← List.length_replicate fl (0 : Nat)]
      exact hm0
    have hfne : f.length ≠ 0 := by
      intro hz
      apply hmf
      unfold bloomM
      rw [hz]
      simp
    have hcsome : bloomContains f k
        = some ((List.range 4).all fun i => probeBit f (bloomPos (bloomM f) k i)) := by
      unfold bloomContains
      rw [if_neg hfne, if_neg hmf]
    -- the sparse index as a selection of positions
    obtain ⟨ps, hbuild0, hchain, hmemps, hhead⟩ :=
      buildIdx_shape bs es es 0 0 (List.drop_zero es).symm (Nat.zero_le _)
    have hbuild : buildIdx bs es 0 0 = idxOfPs es ps := by
      rw [← offAt_zero es]
      exact hbuild0
    have heslen : 0 < es.length := by
      rw [hcons]
      simp
    have hhead2 : ps.head? = some 0 := hhead (Or.inl (offAt_zero es)) heslen
    have hpsne : ps ≠ [] := by
      intro hc
      rw [hc] at hhead2
      cases hhead2
    have hpslen : 0 < ps.length := List.length_pos.mpr hpsne
    have hps0 : ps.getD 0 0 = 0 := by
      rw [getD_zero_eq_getElem hpslen]
      rw [List.head?_eq_getElem?, List.getElem?_eq_getElem hpslen] at hhead2
      exact Option.some.inj hhead2
    have hidxlen : (idxOfPs es ps).length = ps.length := by
      rw [idxOfPs, List.length_map]
    have hpsmem : ∀ j, j < ps.length → ps.getD j 0 < es.length := by
      intro j hj
      rw [getD_zero_eq_getElem hj]
      exact (hmemps _ (List.getElem_mem hj)).2
    have hidxget : ∀ j, j < ps.length → (idxOfPs es ps).getD j default
        = ⟨keyAt es (ps.getD j 0), offAt es (ps.getD j 0)⟩ := by
      intro j hj
      rw [getD_eq_getElem (by rw [hidxlen]; exact hj)]
      unfold idxOfPs
      rw [List.getElem_map, getD_zero_eq_getElem hj]
      rfl
    have hFeq : ∀ j, j < ps.length →
        bytesLt k ((idxOfPs es ps).getD j default).key
          = bytesLt k (keyAt es (ps.getD j 0)) := by
      intro j hj
      rw [hidxget j hj]
    rw [hbuild]
    -- dichotomy on the filter answer
    cases hcv : (List.range 4).all fun i => probeBit f (bloomPos (bloomM f) k i) with
    | false =>
      have hnone : entriesLookup k es = none := by
        apply entriesLookup_none_of_forall
        intro e he hek
        have hkmem : k ∈ es.map Entry.key := by
          rw [← hek]
          exact List.mem_map_of_mem _ he
        have hct := addAll_contains haa hkmem
        rw [hcsome, hcv] at hct
        cases Option.some.inj hct
      rw [hnone]
      simp only [tableGet, hcsome, hcv]
    | true =>
      -- monotone search predicate
      have hmono : ∀ a b, a ≤ b → b < ps.length →
          (bytesLt k ((idxOfPs es ps).getD a default).key) = true →
          (bytesLt k ((idxOfPs es ps).getD b default).key) = true := by
        intro a b hab hb hFa
        rcases Nat.eq_or_lt_of_le hab with heq | hlt
        · subst heq
          exact hFa
        · rw [hFeq b hb]
          rw [hFeq a (by omega)] at hFa
          have hpab := chainLt_getD hchain hlt hb
          have hkey := keyAt_lt hsort hpab (hpsmem b hb)
          exact bytesLt_trans hFa hkey
      have hspec := sortSearch_spec
        (fun j => bytesLt k ((idxOfPs es ps).getD j default).key) ps.length hmono
      simp only [tableGet, hcsome, hcv]
      rw [if_neg (by rw [hidxlen]; omega), hidxlen]
      obtain ⟨hile, hlow, hhit⟩ := hspec
      set i := sortSearch ps.length
        (fun j => bytesLt k ((idxOfPs es ps).getD j default).key) with hidef
      set t := if 0 < i then i - 1 else 0 with htdef
      have htlt : t < ps.length := by
        rw [htdef]
        by_cases h0 : 0 < i
        · rw [if_pos h0]
          omega
        · rw [if_neg h0]
          omega
      set pa := ps.getD t 0 with hpadef
      have hpaes : pa ≤ es.length := le_of_lt (hpsmem t htlt)
      have hstart : ((idxOfPs es ps).getD t default).offset = offAt es pa := by
        rw [hidxget t htlt]
      -- when the search lands at 0, every chain key exceeds k
      have hcase0 : ¬ 0 < i → ∀ p2, p2 < es.length → keyAt es p2 ≠ k := by
        intro h0 p2 hp2 hkeyk
        have hi0 : i = 0 := by omega
        have hf0 : bytesLt k ((idxOfPs es ps).getD i default).key = true :=
          hhit (by omega)
        rw [hi0] at hf0
        rw [hFeq 0 hpslen, hps0] at hf0
        rcases Nat.eq_zero_or_pos p2 with hz | hpos
        · rw [hz] at hkeyk
          rw [hkeyk] at hf0
          rw [bytesLt_irrefl] at hf0
          cases hf0
        · have hkk := keyAt_lt hsort hpos hp2
          have hx := bytesLt_trans hf0 hkk
          rw [hkeyk] at hx
          rw [bytesLt_irrefl] at hx
          cases hx
      -- q: the end position of the block
      have hqspec : ∃ q, pa ≤ q ∧ q ≤ es.length ∧
          (if t + 1 < ps.length then ((idxOfPs es ps).getD (t + 1) default).offset
            else dataLen es) = offAt es q ∧
          (∀ p2, p2 < es.length → keyAt es p2 = k → pa ≤ p2 → p2 < q) := by
        by_cases ht1 : t + 1 < ps.length
        · refine ⟨ps.getD (t + 1) 0, le_of_lt (chainLt_getD hchain (by omega) ht1),
            le_of_lt (hpsmem _ ht1), by rw [if_pos ht1, hidxget (t + 1) ht1], ?_⟩
          intro p2 hp2 hkeyk hge
          by_cases h0 : 0 < i
          · have hit1 : t + 1 = i := by
              rw [htdef, if_pos h0]
              omega
            have hft1 : bytesLt k (keyAt es (ps.getD (t + 1) 0)) = true := by
              rw [← hFeq (t + 1) ht1, hit1]
              exact hhit (by omega)
            by_contra hc
            push_neg at hc
            rcases Nat.eq_or_lt_of_le hc with he2 | hlt2
            · rw [he2, hkeyk] at hft1
              rw [bytesLt_irrefl] at hft1
              cases hft1
            · have hkk := keyAt_lt hsort hlt2 hp2
              have hx := bytesLt_trans hft1 hkk
              rw [hkeyk] at hx
              rw [bytesLt_irrefl] at hx
              cases hx
          · exact absurd hkeyk (hcase0 h0 p2 hp2)
        · exact ⟨es.length, hpaes, le_refl _, by rw [if_neg ht1, offAt_length],
            fun p2 hp2 _ _ => hp2⟩
      obtain ⟨q, hpaq, hqes, hqoff, hqbound⟩ := hqspec
      rw [hstart, hqoff]
      rw [if_neg (by
        have := @offAt_mono es _ _ hpaq
        omega)]
      rw [hfile, readAtN_block es rest pa q hpaq hqes]
      show scanBlock (buildData ((es.drop pa).take (q - pa))) k
        ((buildData ((es.drop pa).take (q - pa))).length + 1) 0
        = some (entriesLookup k es)
      rw [block_scan_lookup es hsort hval pa q hpaq hqes k]
      -- block lookup = global lookup
      congr 1
      cases hlook : entriesLookup k es with
      | none =>
        apply entriesLookup_none_of_forall
        intro e he
        exact entriesLookup_none_mem hlook e
          (List.mem_of_mem_drop (List.mem_of_mem_take he))
      | some res =>
        -- find the position of the matching record
        rw [entriesLookup] at hlook
        cases hfind : es.find? (fun x => x.key == k) with
        | none => rw [hfind] at hlook; cases hlook
        | some x =>
          rw [hfind, Option.map_some'] at hlook
          have hxmem : x ∈ es := List.mem_of_find?_eq_some hfind
          have hxkey : x.key = k := by
            have := List.find?_some hfind
            simpa using this
          obtain ⟨p2, hp2, hxp⟩ := List.mem_iff_getElem.mp hxmem
          have hkAt : keyAt es p2 = k := by
            unfold keyAt
            rw [getD_eq_getElem hp2, hxp, hxkey]
          -- pa ≤ p2
          have hpage : pa ≤ p2 := by
            by_cases h0 : 0 < i
            · by_contra hcp
              push_neg at hcp
              have hnf : bytesLt k ((idxOfPs es ps).getD t default).key = false := by
                apply hlow
                rw [htdef, if_pos h0]
                omega
              rw [hFeq t htlt] at hnf
              have hkk := keyAt_lt hsort hcp (hpsmem t htlt)
              rw [hkAt] at hkk
              rw [hkk] at hnf
              cases hnf
            · exact absurd hkAt (hcase0 h0 p2 hp2)
          have hp2q : p2 < q := hqbound p2 hp2 hkAt hpage
          -- x is in the block
          have hxinmid : x ∈ (es.drop pa).take (q - pa) := by
            have hlt2 : p2 - pa < ((es.drop pa).take (q - pa)).length := by
              rw [List.length_take, List.length_drop]
              omega
            have hget : ((es.drop pa).take (q - pa)).get ⟨p2 - pa, hlt2⟩
                = es.get ⟨p2, hp2⟩ := by
              simp only [List.get_eq_getElem]
              rw [List.getElem_take, List.getElem_drop]
              congr 1
              omega
            simp only [List.get_eq_getElem] at hget
            rw [← hxp, ← hget]
            exact List.getElem_mem hlt2
          have hsmid : SortedE ((es.drop pa).take (q - pa)) := by
            unfold SortedE at hsort ⊢
            exact (hsort.drop pa).take _
          rw [entriesLookup_of_mem hsmid hxinmid hxkey, ← hlook]

/-! ## Writer success and size bounds -/

theorem addAll_total {bf : Bytes} (ks : List Bytes) (hm : bloomM bf ≠ 0) :
    ∃ bf2, addAll bf ks = some bf2 := by
  induction ks generalizing bf with
  | nil => exact ⟨bf, rfl⟩
  | cons x xs ih =>
    obtain ⟨y, hy⟩ : ∃ y, bloomAdd bf x = some y := by
      unfold bloomAdd
      rw [if_neg hm]
      exact ⟨_, rfl⟩
    have hm2 : bloomM y ≠ 0 := by
      have hl := bloomAdd_length hy
      unfold bloomM at hm ⊢
      rw [hl]
      exact hm
    obtain ⟨bf2, hbf2⟩ := ih hm2
    refine ⟨bf2, ?_⟩
    unfold addAll at hbf2 ⊢
    rw [List.foldlM_cons, hy]
    exact hbf2

theorem writeTable_total {bs fl : Nat} (es : List Entry)
    (hok : es = [] ∨ bloomM (List.replicate fl 0) ≠ 0) :
    ∃ file, writeTable bs fl es = some file := by
  rcases hok with hnil | hm
  · subst hnil
    exact ⟨_, rfl⟩
  · obtain ⟨f, hf⟩ := addAll_total (es.map Entry.key) hm
    rw [writeTable_eq, hf]
    exact ⟨_, rfl⟩

theorem idxBytes_buildIdx_le (bs : Nat) :
    ∀ (rest : List Entry) (off last : Nat),
      (∀ e ∈ rest, ValidEntry e) →
      (idxBytes (buildIdx bs rest off last)).length ≤ dataLen rest := by
  intro rest
  induction rest with
  | nil =>
    intro off last _
    simp [buildIdx, idxBytes, dataLen]
  | cons e r ih =>
    intro off last hval
    rw [buildIdx]
    by_cases hsel : off = 0 ∨ bs ≤ off - last
    · rw [if_pos hsel, idxBytes_cons, List.length_append, dataLen_cons]
      have h1 : (beBytes 2 (⟨e.key, off⟩ : IdxEntry).key.length ++ (⟨e.key, off⟩ : IdxEntry).key
          ++ beBytes 8 (⟨e.key, off⟩ : IdxEntry).offset).length ≤ entrySize e := by
        show (beBytes 2 e.key.length ++ e.key ++ beBytes 8 off).length ≤ entrySize e
        simp [List.length_append, length_beBytes, entrySize]
        omega
      have h2 := ih (off + entrySize e) off (fun x hx => hval x (List.mem_cons_of_mem e hx))
      omega
    · rw [if_neg hsel, dataLen_cons]
      have h2 := ih (off + entrySize e) last (fun x hx => hval x (List.mem_cons_of_mem e hx))
      omega

theorem bloomBytes_mul8_lt {n : Nat} (h : n < 2 ^ 28) : bloomBytes n * 8 < 2 ^ 32 := by
  have h1 : bloomBits n ≤ bloomBits (2 ^ 28) :=
    Nat.div_le_div_right (Nat.mul_le_mul_left _ (le_of_lt h))
  have h2 : bloomBytes n * 8 ≤ bloomBits n + 7 := by
    unfold bloomBytes
    have h3 := Nat.div_mul_le_self (bloomBits n + 7) 8
    omega
  have h4 : bloomBits (2 ^ 28) + 7 < 2 ^ 32 := by norm_num [bloomBits]
  omega

theorem bloomBytes_pos {n : Nat} (h : 1 ≤ n) : 1 ≤ bloomBytes n := by
  have h1 : bloomBits 1 ≤ bloomBits n :=
    Nat.div_le_div_right (Nat.mul_le_mul_left _ h)
  have h2 : bloomBits 1 = 9 := by norm_num [bloomBits]
  unfold bloomBytes
  rw [Nat.le_div_iff_mul_le (by norm_num)]
  omega

/-- Full round-trip, assembled: a skip list whose filter sizing is non-zero
(tracked size at least 64) — or an empty one — writes successfully, opens
successfully, and serves every lookup exactly. -/
theorem writeSSTable_roundtrip (bs : Nat) (sl : SkipListM)
    (hsort : SortedE sl.entries)
    (hval : ∀ e ∈ sl.entries, ValidEntry e)
    (hok : sl.entries = [] ∨ 64 ≤ sl.size)
    (hsize : sl.size < 2 ^ 34)
    (hdata : dataLen sl.entries < 2 ^ 59) :
    ∃ file t, writeSSTable bs sl = some file ∧ openTable file = some t ∧
      ∀ k, tableGet t k = some (entriesLookup k sl.entries) := by
  have hn28 : sl.size.toNat / 64 < 2 ^ 28 := by omega
  have hfl8 : bloomBytes (sl.size.toNat / 64) * 8 < 2 ^ 32 := bloomBytes_mul8_lt hn28
  have hwrite : ∃ file, writeTable bs (bloomBytes (sl.size.toNat / 64)) sl.entries
      = some file := by
    apply writeTable_total
    rcases hok with hnil | hge
    · exact Or.inl hnil
    · right
      have hfl1 : 1 ≤ bloomBytes (sl.size.toNat / 64) := bloomBytes_pos (by omega)
      unfold bloomM
      rw [List.length_replicate, Nat.mod_eq_of_lt hfl8]
      omega
  obtain ⟨file, hw⟩ := hwrite
  have hflen_bound : file.length ≤ 2 ^ 63 := by
    have hw2 := hw
    rw [writeTable_eq] at hw2
    cases haa : addAll (List.replicate (bloomBytes (sl.size.toNat / 64)) 0)
        (sl.entries.map Entry.key) with
    | none => rw [haa] at hw2; cases hw2
    | some f =>
      rw [haa, Option.map_some'] at hw2
      have hfeq := Option.some.inj hw2
      have hflen2 : f.length = bloomBytes (sl.size.toNat / 64) :=
        (addAll_length haa).trans (List.length_replicate _ _)
      rw [← hfeq]
      have hidx := idxBytes_buildIdx_le bs sl.entries 0 0 hval
      simp only [List.length_append, length_beBytes, length_buildData, hflen2]
      omega
  obtain ⟨f, haa, hflen2, hopen⟩ := openTable_writeTable hw hval (by omega) hflen_bound
  refine ⟨file, ⟨f, buildIdx bs sl.entries 0 0, dataLen sl.entries, file⟩, ?_, hopen, ?_⟩
  · unfold writeSSTable
    exact hw
  · intro k
    exact tableGet_writeTable hw haa hsort hval hfl8 k

/-! ## Claim C1 -/

/-- C1 (counterexample to the claim as stated): the claim quantifies over
*every* skip list, but for a non-empty skip list whose tracked size is below
64 bytes — here one record, key `"a"`, empty value, size 13 — the writer
sizes its Bloom filter with `NewBloomFilter(13/64 = 0, 0.01)`, i.e. zero
bits, and the first `Add` divides by zero (a Go runtime panic): no segment
file is produced at all, so writing-then-opening cannot yield a table. -/
theorem c1_small_skiplist_write_panics :
    writeSSTable 16 ⟨[⟨[98], [1], 0, false⟩], 14⟩ = none := by decide

/-- C1 (amended): for every skip list whose records are within the format
bounds and whose tracked size is at least 64 (so the writer allocates a
non-empty filter) — or the empty skip list — writing it to a segment file
and opening that file yields a table whose `Get(k)` returns exactly the
written `(value, flags, tombstone)` for every key in the set and not-found
for every other key; filter false positives never cause a wrong record.
(The size bounds keep the `uint16`/`uint32` length fields and `int64`
offsets faithful.) -/
theorem c1_write_then_open_preserves_mappings (bs : Nat) (sl : SkipListM)
    (hsort : SortedE sl.entries)
    (hval : ∀ e ∈ sl.entries, ValidEntry e)
    (hok : sl.entries = [] ∨ 64 ≤ sl.size)
    (hsize : sl.size < 2 ^ 34)
    (hdata : dataLen sl.entries < 2 ^ 59) :
    ∃ file t, writeSSTable bs sl = some file ∧ openTable file = some t ∧
      ∀ k, tableGet t k = some (entriesLookup k sl.entries) :=
  writeSSTable_roundtrip bs sl hsort hval hok hsize hdata

theorem c1_write_then_open_preserves_mappings_witness :
    SortedE ([⟨[97], List.replicate 52 1, 5, false⟩] : List Entry) ∧
    (∃ file t,
      writeSSTable 16 ⟨[⟨[97], List.replicate 52 1, 5, false⟩], 65⟩ = some file ∧
      openTable file = some t ∧
      ∀ k, tableGet t k
        = some (entriesLookup k [⟨[97], List.replicate 52 1, 5, false⟩])) :=
  ⟨by unfold SortedE; exact List.chain'_singleton _,
    c1_write_then_open_preserves_mappings 16 ⟨[⟨[97], List.replicate 52 1, 5, false⟩], 65⟩
      (by unfold SortedE; exact List.chain'_singleton _)
      (by decide) (by decide) (by decide) (by decide)⟩

/-! ## Claim C3 -/

/-- C3: the membership filter never returns a false negative: every key that
went through a successful `Add` satisfies `Contains` on the resulting
filter, however many other keys were added; and in particular, for a segment
file produced by the writer, the filter that `OpenSSTable` reads back
answers `contains = true` on every key the segment holds. -/
theorem c3_filter_no_false_negatives :
    (∀ (bf bf2 : Bytes) (ks : List Bytes) (k : Bytes),
        addAll bf ks = some bf2 → k ∈ ks → bloomContains bf2 k = some true) ∧
    (∀ (bs fl : Nat) (es : List Entry) (file : Bytes) (t : TableM),
        writeTable bs fl es = some file → openTable file = some t →
        (∀ e ∈ es, ValidEntry e) → fl < 2 ^ 32 → file.length ≤ 2 ^ 63 →
        ∀ e ∈ es, bloomContains t.filter e.key = some true) := by
  constructor
  · intro bf bf2 ks k h hk
    exact addAll_contains h hk
  · intro bs fl es file t hw hopen hval hfl32 hlen e he
    obtain ⟨f, haa, hflen, hopen2⟩ := openTable_writeTable hw hval hfl32 hlen
    rw [hopen] at hopen2
    have ht := Option.some.inj hopen2
    rw [ht]
    exact addAll_contains haa (List.mem_map_of_mem _ he)

theorem c3_filter_no_false_negatives_witness :
    addAll [0] [[7]] = some [68] ∧ bloomContains [68] [7] = some true :=
  ⟨by decide, c3_filter_no_false_negatives.1 [0] [68] [[7]] [7] (by decide) (by decide)⟩

/-! ## Claim C4 -/

/-- C4: contrary to the claim, `BloomFilter.Add` is *not* total on the
filters the segment writer builds: for a skip list with tracked size below
64 bytes (one record, key `"a"`, empty value, size 13), the filter is
allocated with `NewBloomFilter(0, 0.01)` — zero bytes at `n = 0`, a
float-exact fact — and `Add`'s probe computation takes a modulus by
`m = len·8 = 0`, which panics in Go (integer divide by zero). Evaluating
the model: the zero-length filter's `Add` aborts, and so does the whole
segment write. -/
theorem c4_bloom_add_division_by_zero :
    bloomAdd [] [97] = none ∧
    bloomBytes 0 = 0 ∧
    writeSSTable 16 ⟨[⟨[97], [], 0, false⟩], 13⟩ = none := by decide

/-! ## Claim C6 -/

/-- C6 (counterexample to the claim as stated): overwriting an existing key
does *not* increase the tracked size — `SkipList.Set` returns from the
overwrite branch before the `size +=` statement. Setting key `"a"` twice
leaves the size at 14, not `14 + (1 + 1 + 12)`. -/
theorem c6_overwrite_does_not_grow_size :
    (slSet (slSet slNew [97] [98] 0 false) [97] [99] 0 false).size
      ≠ (slSet slNew [97] [98] 0 false).size + ((1 + 1 + 12 : Nat) : Int) := by decide

/-- C6 (amended): `SkipList.Set(key, value, …)` increases the tracked size
by `len(key) + len(value) + 12` exactly when the key was not already
present; an overwrite leaves the size unchanged. -/
theorem c6_skiplist_set_size (s : SkipListM) (k v : Bytes) (f : Nat) (t : Bool) :
    (containsKey s.entries k = true → (slSet s k v f t).size = s.size) ∧
    (containsKey s.entries k = false → (slSet s k v f t).size
        = s.size + ((k.length + v.length + 12 : Nat) : Int)) := by
  constructor <;> intro h <;> unfold slSet <;> simp [h]

theorem c6_skiplist_set_size_witness :
    containsKey ([] : List Entry) [97] = false ∧
    (slSet slNew [97] [98] 0 false).size = (slNew.size + ((1 + 1 + 12 : Nat) : Int)) :=
  ⟨by decide, (c6_skiplist_set_size slNew [97] [98] 0 false).2 (by decide)⟩

/-! ## Engine (storage.go)

`Storage` holds the shards (each a skip list), the atomic aggregate size,
the opened tables, and the configuration. The data directory is not
modelled: a segment "file" is its byte contents, `CreateSSTable` is
`writeSSTable`, `loadSSTable` is `openTable` plus an append. I/O failures of
`CreateSSTable` are modelled by a per-shard oracle `io : Nat → Bool`;
the filter panic of C4 is a failure of `writeSSTable` itself. Locks are
not modelled: every operation is one atomic step of a sequential run, which
matches the code's per-shard/`tables`/flush locking discipline for the
properties proved here. -/

structure EngineM where
  shards : List SkipListM
  shardsSize : Int
  tables : List TableM
  blockSize : Nat
  maxMemSize : Int

/-- `getShard`: FNV-32a of the key modulo the shard count. (With zero
shards the Go modulus would panic; all theorems assume at least one.) -/
def getShardIdx (st : EngineM) (k : Bytes) : Nat :=
  fnv32 k % st.shards.length

/-- The `Storage.Get` loop over tables, newest first (the argument list is
already reversed). Outer `none` = error/panic propagated from a table. -/
def tablesGetRev (k : Bytes) : List TableM → Option (Option (Bytes × Nat))
  | [] => some none
  | t :: older =>
    match tableGet t k with
    | none => none
    | some (some (v, f, tomb)) => if tomb then some none else some (some (v, f))
    | some none => tablesGetRev k older

/-- `Storage.Get`: probe the owning shard's skip list; a tombstone is a
definitive not-found; otherwise consult the tables newest-to-oldest. -/
def storageGet (st : EngineM) (k : Bytes) : Option (Option (Bytes × Nat)) :=
  match slGet (st.shards.getD (getShardIdx st k) slNew) k with
  | some (v, f, tomb) => if tomb then some none else some (some (v, f))
  | none => tablesGetRev k st.tables.reverse

/-- `CreateSSTable` for shard `i`: the model write, or an I/O failure when
the oracle says so. -/
def shardWrite (io : Nat → Bool) (bs : Nat) (i : Nat) (sl : SkipListM) : Option Bytes :=
  if io i then writeSSTable bs sl else none

/-- One iteration of the flush loop for shard `i`: skip empty shards;
on write failure return the error with nothing changed; on success subtract
the shard's size, install a fresh skip list, and (when `load`) open the new
segment and append it — an open failure errors out after the swap, exactly
as in the code. -/
def flushStep (io : Nat → Bool) (load : Bool) (st : EngineM) (i : Nat) :
    EngineM × Bool :=
  let sl := st.shards.getD i slNew
  if sl.size = 0 then (st, true)
  else
    match shardWrite io st.blockSize i sl with
    | none => (st, false)
    | some file =>
      let st2 : EngineM := ⟨st.shards.set i slNew, st.shardsSize - sl.size,
        st.tables, st.blockSize, st.maxMemSize⟩
      if load then
        match openTable file with
        | none => (st2, false)
        | some t => (⟨st2.shards, st2.shardsSize, st2.tables ++ [t],
            st2.blockSize, st2.maxMemSize⟩, true)
      else (st2, true)

/-- The flush loop over a list of shard indices, stopping at the first
error. -/
def flushLoopGo (io : Nat → Bool) (load : Bool) :
    List Nat → EngineM → EngineM × Bool
  | [], st => (st, true)
  | i :: rest, st =>
    match flushStep io load st i with
    | (st2, true) => flushLoopGo io load rest st2
    | (st2, false) => (st2, false)

/-- `Storage.flush` (with the try-lock acquired): if the aggregate size is
positive, walk all shards in index order. -/
def storageFlush (io : Nat → Bool) (load : Bool) (st : EngineM) : EngineM × Bool :=
  if 0 < st.shardsSize then flushLoopGo io load (List.range st.shards.length) st
  else (st, true)

/-- `Storage.Set`: update the owning shard, add the size delta to the
aggregate, flush when the aggregate reaches `maxMemSize`. No validation of
the key happens anywhere on this path. -/
def storageSet (io : Nat → Bool) (k v : Bytes) (f : Nat) (st : EngineM) :
    EngineM × Bool :=
  let idx := getShardIdx st k
  let shard := st.shards.getD idx slNew
  let shard2 := slSet shard k v f false
  let st2 : EngineM := ⟨st.shards.set idx shard2,
    st.shardsSize + (shard2.size - shard.size), st.tables, st.blockSize, st.maxMemSize⟩
  if st2.maxMemSize ≤ st2.shardsSize then storageFlush io true st2
  else (st2, true)

/-- `Storage.Delete`: route to the owning shard and tombstone the key in its
skip list. Nothing else: no size recording, no aggregate update, no flush
check. No key validation either. -/
def storageDelete (k : Bytes) (st : EngineM) : EngineM × Bool :=
  let idx := getShardIdx st k
  (⟨st.shards.set idx (slDelete (st.shards.getD idx slNew) k), st.shardsSize,
    st.tables, st.blockSize, st.maxMemSize⟩, true)

/-- Sum of all shard skip-list sizes. -/
def totalSize (st : EngineM) : Int := (st.shards.map SkipListM.size).sum

theorem getDset_self {α : Type} (l : List α) (d : α) {i : Nat} (a : α)
    (h : i < l.length) : (l.set i a).getD i d = a := by
  rw [List.getD_eq_getElem?_getD, List.getElem?_set_self h]
  rfl

theorem getDset_ne {α : Type} (l : List α) (d : α) {i j : Nat} (a : α)
    (h : i ≠ j) : (l.set i a).getD j d = l.getD j d := by
  rw [List.getD_eq_getElem?_getD, List.getElem?_set_ne h, ← List.getD_eq_getElem?_getD]

/-- `Set` grows the tracked size by exactly the nominal delta or not at all. -/
theorem slSet_size (s : SkipListM) (k v : Bytes) (f : Nat) (t : Bool) :
    (slSet s k v f t).size = s.size ∨
    (slSet s k v f t).size = s.size + ((k.length + v.length + 12 : Nat) : Int) := by
  unfold slSet
  by_cases h : containsKey s.entries k
  · simp [h]
  · simp [h]

theorem find?_chainSet_self (es : List Entry) (e : Entry) :
    (chainSet es e).find? (fun x => x.key == e.key) = some e := by
  induction es with
  | nil => simp [chainSet, List.find?]
  | cons x xs ih =>
    unfold chainSet
    by_cases hlt : bytesLt e.key x.key
    · simp [hlt, List.find?]
    · by_cases heq : x.key == e.key
      · simp [hlt, heq, List.find?]
      · have hx : (x.key == e.key) = false := by
          simpa using heq
        simp [hlt, hx, List.find?, ih]

theorem find?_chainSet_ne (es : List Entry) (e : Entry) (k : Bytes)
    (h : e.key ≠ k) :
    (chainSet es e).find? (fun x => x.key == k) = es.find? (fun x => x.key == k) := by
  induction es with
  | nil =>
    have he : (e.key == k) = false := by simpa using h
    simp [chainSet, List.find?, he]
  | cons x xs ih =>
    unfold chainSet
    by_cases hlt : bytesLt e.key x.key
    · have he : (e.key == k) = false := by simpa using h
      simp [hlt, List.find?, he]
    · by_cases heq : x.key == e.key
      · have hxe : x.key = e.key := by simpa using heq
        have he : (e.key == k) = false := by simpa using h
        have hx : (x.key == k) = false := by
          simp [hxe]
          simpa using h
        simp [hlt, heq, List.find?, he, hx]
      · simp only [hlt, if_false, heq]
        by_cases hx : x.key == k
        · simp [List.find?, hx]
        · have hx' : (x.key == k) = false := by simpa using hx
          simp [List.find?, hx', ih]

/-- Looking up the key just set finds the new record. -/
theorem slGet_slSet_self (s : SkipListM) (k v : Bytes) (f : Nat) (t : Bool) :
    slGet (slSet s k v f t) k = some (v, f, t) := by
  have h := find?_chainSet_self s.entries ⟨k, v, f, t⟩
  unfold slGet slSet
  by_cases hc : containsKey s.entries k
  · simp [hc, h]
  · simp [hc, h]

/-- Setting one key leaves lookups of other keys unchanged. -/
theorem slGet_slSet_ne (s : SkipListM) (k v : Bytes) (f : Nat) (t : Bool)
    (k2 : Bytes) (h : k ≠ k2) :
    slGet (slSet s k v f t) k2 = slGet s k2 := by
  have h2 := find?_chainSet_ne s.entries ⟨k, v, f, t⟩ k2 h
  unfold slGet slSet
  by_cases hc : containsKey s.entries k
  · simp [hc, h2]
  · simp [hc, h2]

/-- C5 counterexample to the claimed validation: on a fresh one-shard engine
with a large memory budget, `Set` with the empty key reports success, and
`Get` with the empty key finds the stored record — no InvalidArgument error
exists anywhere on either path. -/
theorem c5_empty_key_no_validation_cex :
    (storageSet (fun _ => true) [] [5] 7 ⟨[slNew], 0, [], 16, 1000000⟩).2 = true ∧
    storageGet (storageSet (fun _ => true) [] [5] 7
        ⟨[slNew], 0, [], 16, 1000000⟩).1 [] = some (some ([5], 7)) := by
  constructor
  · decide
  · decide

/-- C5 (amended): the engine performs no key validation at all. On any
engine with at least one shard whose aggregate size stays below the memory
budget, `Set` with the empty key succeeds and stores the record under `""`,
and `Get` with the empty key returns it. -/
theorem c5_empty_key_accepted (io : Nat → Bool) (v : Bytes) (f : Nat)
    (st : EngineM) (hn : 0 < st.shards.length)
    (hmem : st.shardsSize + ((v.length + 12 : Nat) : Int) < st.maxMemSize) :
    (storageSet io [] v f st).2 = true ∧
    storageGet (storageSet io [] v f st).1 [] = some (some (v, f)) := by
  unfold storageSet
  have hidx : getShardIdx st [] < st.shards.length := Nat.mod_lt _ hn
  have hsz := slSet_size (st.shards.getD (getShardIdx st []) slNew) [] v f false
  have hcond : ¬ (st.maxMemSize ≤ st.shardsSize +
      ((slSet (st.shards.getD (getShardIdx st []) slNew) [] v f false).size -
        (st.shards.getD (getShardIdx st []) slNew).size)) := by
    rcases hsz with h | h <;> rw [h] <;> simp at hmem ⊢ <;> omega
  simp only [hcond, if_false]
  refine ⟨by trivial, ?_⟩
  unfold storageGet
  have hlen : (st.shards.set (getShardIdx st [])
      (slSet (st.shards.getD (getShardIdx st []) slNew) [] v f false)).length
      = st.shards.length := by simp
  have hidx2 : getShardIdx ⟨st.shards.set (getShardIdx st [])
      (slSet (st.shards.getD (getShardIdx st []) slNew) [] v f false),
      st.shardsSize + ((slSet (st.shards.getD (getShardIdx st []) slNew) [] v f false).size -
        (st.shards.getD (getShardIdx st []) slNew).size),
      st.tables, st.blockSize, st.maxMemSize⟩ [] = getShardIdx st [] := by
    unfold getShardIdx
    simp [hlen]
  simp only [hidx2]
  rw [getDset_self _ _ _ hidx, slGet_slSet_self]
  simp

/-- C5 witness: the amended theorem at a concrete engine. -/
theorem c5_empty_key_accepted_witness :
    (storageSet (fun _ => true) [] [5] 7 ⟨[slNew], 0, [], 16, 100⟩).2 = true ∧
    storageGet (storageSet (fun _ => true) [] [5] 7
        ⟨[slNew], 0, [], 16, 100⟩).1 [] = some (some ([5], 7)) :=
  c5_empty_key_accepted (fun _ => true) [5] 7 ⟨[slNew], 0, [], 16, 100⟩
    (by decide) (by decide)

/-- C7 counterexample to the claimed accounting: deleting a key on a fresh
engine with memory budget 1 grows the owning shard's skip list by 13 bytes,
yet the aggregate counter stays 0, and no flush happens even though any
added delta would have reached the budget (no segment appears). -/
theorem c7_delete_skips_accounting_cex :
    ((storageDelete [97] ⟨[slNew], 0, [], 16, 1⟩).1.shards.getD 0 slNew).size = 13 ∧
    (storageDelete [97] ⟨[slNew], 0, [], 16, 1⟩).1.shardsSize = 0 ∧
    (storageDelete [97] ⟨[slNew], 0, [], 16, 1⟩).1.tables = [] := by
  refine ⟨by decide, by decide, by decide⟩

/-- C7 (amended): `Storage.Delete` only tombstones the key in the owning
shard's skip list. It records no before/after sizes, never touches the
aggregate size counter, and never invokes flush: the aggregate counter,
the table list, and every other shard are returned unchanged. -/
theorem c7_delete_no_size_accounting (k : Bytes) (st : EngineM) :
    (storageDelete k st).2 = true ∧
    (storageDelete k st).1.shardsSize = st.shardsSize ∧
    (storageDelete k st).1.tables = st.tables ∧
    (storageDelete k st).1.shards =
      st.shards.set (getShardIdx st k)
        (slDelete (st.shards.getD (getShardIdx st k) slNew) k) :=
  ⟨rfl, rfl, rfl, rfl⟩

/-! ## Flush failure (C9) -/

theorem sum_map_set_size (l : List SkipListM) :
    ∀ (j : Nat) (a : SkipListM), j < l.length →
    ((l.set j a).map SkipListM.size).sum
      = (l.map SkipListM.size).sum - (l.getD j slNew).size + a.size := by
  induction l with
  | nil => intro j a hj; simp at hj
  | cons x xs ih =>
    intro j a hj
    cases j with
    | zero =>
      simp [List.getD_cons_zero]
      omega
    | succ n =>
      have hn : n < xs.length := by simpa using hj
      have h := ih n a hn
      show ((x :: xs.set n a).map SkipListM.size).sum = _
      simp only [List.map_cons, List.sum_cons, List.getD_cons_succ, h]
      omega

/-- When the shard is non-empty and its write fails, the loop body returns
the error with the state untouched. -/
theorem flushStep_fail (io : Nat → Bool) (load : Bool) (st : EngineM) (i : Nat)
    (hsz : (st.shards.getD i slNew).size ≠ 0)
    (hfail : shardWrite io st.blockSize i (st.shards.getD i slNew) = none) :
    flushStep io load st i = (st, false) := by
  unfold flushStep
  rw [if_neg hsz, hfail]

/-- The loop body either returns the state unchanged, or swaps shard `i`
for a fresh skip list while subtracting exactly that shard's size. -/
theorem flushStep_shape (io : Nat → Bool) (load : Bool) (st : EngineM) (i : Nat) :
    (flushStep io load st i).1 = st ∨
    (i < st.shards.length ∧
      (flushStep io load st i).1.shards = st.shards.set i slNew ∧
      (flushStep io load st i).1.shardsSize
        = st.shardsSize - (st.shards.getD i slNew).size ∧
      (flushStep io load st i).1.blockSize = st.blockSize) := by
  by_cases h0 : (st.shards.getD i slNew).size = 0
  · left
    unfold flushStep
    rw [if_pos h0]
  · have hi : i < st.shards.length := by
      by_contra hge
      have hd : st.shards.getD i slNew = slNew :=
        List.getD_eq_default _ _ (Nat.le_of_not_lt hge)
      rw [hd] at h0
      exact h0 rfl
    cases hw : shardWrite io st.blockSize i (st.shards.getD i slNew) with
    | none =>
      left
      unfold flushStep
      rw [if_neg h0, hw]
    | some file =>
      cases load with
      | false =>
        have hstep : flushStep io false st i = (⟨st.shards.set i slNew,
            st.shardsSize - (st.shards.getD i slNew).size, st.tables,
            st.blockSize, st.maxMemSize⟩, true) := by
          unfold flushStep
          rw [if_neg h0, hw]
          rfl
        right
        rw [hstep]
        exact ⟨hi, rfl, rfl, rfl⟩
      | true =>
        cases ho : openTable file with
        | none =>
          have hstep : flushStep io true st i = (⟨st.shards.set i slNew,
              st.shardsSize - (st.shards.getD i slNew).size, st.tables,
              st.blockSize, st.maxMemSize⟩, false) := by
            unfold flushStep
            rw [if_neg h0, hw]
            simp only [if_true, ho]
          right
          rw [hstep]
          exact ⟨hi, rfl, rfl, rfl⟩
        | some t =>
          have hstep : flushStep io true st i = (⟨st.shards.set i slNew,
              st.shardsSize - (st.shards.getD i slNew).size, st.tables ++ [t],
              st.blockSize, st.maxMemSize⟩, true) := by
            unfold flushStep
            rw [if_neg h0, hw]
            simp only [if_true, ho]
          right
          rw [hstep]
          exact ⟨hi, rfl, rfl, rfl⟩

/-- Core of C9: if shard `i`'s write would fail, the flush loop over any
index list containing `i` returns an error, shard `i`'s skip list survives
untouched, and the aggregate counter drifts only by sizes of shards that
were actually emptied (`shardsSize − Σ shard sizes` is invariant), so it is
never decremented by shard `i`'s size. -/
theorem flushLoopGo_write_fail (io : Nat → Bool) (load : Bool) :
    ∀ (is : List Nat) (st : EngineM) (i : Nat), i ∈ is →
      (st.shards.getD i slNew).size ≠ 0 →
      shardWrite io st.blockSize i (st.shards.getD i slNew) = none →
      (flushLoopGo io load is st).2 = false ∧
      (flushLoopGo io load is st).1.shards.getD i slNew = st.shards.getD i slNew ∧
      (flushLoopGo io load is st).1.shardsSize - totalSize (flushLoopGo io load is st).1
        = st.shardsSize - totalSize st := by
  intro is
  induction is with
  | nil => intro st i hi _ _; simp at hi
  | cons j rest ih =>
    intro st i hi hsz hfail
    by_cases hji : j = i
    · subst hji
      have hstep := flushStep_fail io load st j hsz hfail
      unfold flushLoopGo
      rw [hstep]
      exact ⟨rfl, rfl, rfl⟩
    · have hi' : i ∈ rest := by
        rcases List.mem_cons.mp hi with h | h
        · exact absurd h.symm hji
        · exact h
      have hgetD : (flushStep io load st j).1.shards.getD i slNew
          = st.shards.getD i slNew := by
        rcases flushStep_shape io load st j with hsh | ⟨_, hshards, _, _⟩
        · rw [hsh]
        · rw [hshards, getDset_ne _ _ _ hji]
      have hdiff : (flushStep io load st j).1.shardsSize
            - totalSize (flushStep io load st j).1
          = st.shardsSize - totalSize st := by
        rcases flushStep_shape io load st j with hsh | ⟨hj, hshards, hsize, _⟩
        · rw [hsh]
        · unfold totalSize
          rw [hshards, hsize, sum_map_set_size st.shards j slNew hj]
          simp [slNew]
      have hbsJ : (flushStep io load st j).1.blockSize = st.blockSize := by
        rcases flushStep_shape io load st j with hsh | ⟨_, _, _, hbs⟩
        · rw [hsh]
        · exact hbs
      cases hb : (flushStep io load st j).2 with
      | true =>
        have hpair : flushStep io load st j = ((flushStep io load st j).1, true) := by
          rw [← hb]
        unfold flushLoopGo
        rw [hpair]
        have hrec := ih (flushStep io load st j).1 i hi'
          (by rw [hgetD]; exact hsz) (by rw [hbsJ, hgetD]; exact hfail)
        refine ⟨hrec.1, ?_, ?_⟩
        · rw [hrec.2.1, hgetD]
        · rw [hrec.2.2, hdiff]
      | false =>
        have hpair : flushStep io load st j = ((flushStep io load st j).1, false) := by
          rw [← hb]
        unfold flushLoopGo
        rw [hpair]
        exact ⟨rfl, hgetD, hdiff⟩

/-- C9: if, during a flush that actually runs (positive aggregate), the
segment-writer invocation for shard `i` fails — the I/O oracle denies it or
the writer itself aborts (e.g. the C4 panic) — then `flush` reports the
error, shard `i`'s in-memory skip list still holds its pre-flush contents,
and the aggregate size counter has not been decremented by shard `i`'s size:
`shardsSize − Σ shard sizes` is exactly what it was before the flush, i.e.
every decrement that did happen is matched by a shard that was genuinely
emptied, and shard `i` was not. -/
theorem c9_flush_write_failure_preserves_shard (io : Nat → Bool) (load : Bool)
    (st : EngineM) (i : Nat) (hpos : 0 < st.shardsSize)
    (hi : i < st.shards.length)
    (hsz : (st.shards.getD i slNew).size ≠ 0)
    (hfail : shardWrite io st.blockSize i (st.shards.getD i slNew) = none) :
    (storageFlush io load st).2 = false ∧
    (storageFlush io load st).1.shards.getD i slNew = st.shards.getD i slNew ∧
    (storageFlush io load st).1.shardsSize - totalSize (storageFlush io load st).1
      = st.shardsSize - totalSize st := by
  unfold storageFlush
  simp only [hpos, if_true]
  exact flushLoopGo_write_fail io load (List.range st.shards.length) st i
    (List.mem_range.mpr hi) hsz hfail

/-- C9 witness: one shard holding one 13-byte record, the I/O oracle
failing every write. -/
theorem c9_flush_write_failure_preserves_shard_witness :
    (storageFlush (fun _ => false) true
        ⟨[⟨[⟨[97], [], 0, false⟩], 13⟩], 13, [], 16, 100⟩).2 = false ∧
    (storageFlush (fun _ => false) true
        ⟨[⟨[⟨[97], [], 0, false⟩], 13⟩], 13, [], 16, 100⟩).1.shards.getD 0 slNew
      = (⟨[⟨[⟨[97], [], 0, false⟩], 13⟩], 13, [], 16,
          100⟩ : EngineM).shards.getD 0 slNew ∧
    (storageFlush (fun _ => false) true
          ⟨[⟨[⟨[97], [], 0, false⟩], 13⟩], 13, [], 16, 100⟩).1.shardsSize
        - totalSize (storageFlush (fun _ => false) true
          ⟨[⟨[⟨[97], [], 0, false⟩], 13⟩], 13, [], 16, 100⟩).1
      = (13 : Int) - totalSize (⟨[⟨[⟨[97], [], 0, false⟩], 13⟩], 13, [], 16,
          100⟩ : EngineM) :=
  c9_flush_write_failure_preserves_shard (fun _ => false) true
    ⟨[⟨[⟨[97], [], 0, false⟩], 13⟩], 13, [], 16, 100⟩ 0
    (by decide) (by decide) (by decide) (by decide)

/-! ## Segment file names and load order (C8)

`flush` names each segment `fmt.Sprintf("%d.%d.sst", i, time.Now().UnixNano())`
and `loadSSTables` sorts the collected paths with `sort.Strings`, i.e. plain
lexicographic byte order. `decRepr` is `%d` for a non-negative integer:
decimal digits, no leading zeros, and `fileName` assembles the name;
`bytesLt` is exactly Go's `<` on strings. -/

def decDigitsAux : Nat → Nat → Bytes
  | 0, _ => []
  | fuel + 1, n =>
    if n < 10 then [48 + n] else decDigitsAux fuel (n / 10) ++ [48 + n % 10]

/-- The decimal rendering `fmt.Sprintf("%d", n)` as bytes. -/
def decRepr (n : Nat) : Bytes := decDigitsAux (n + 1) n

/-- The segment file name `"<shard>.<timestamp>.sst"` as bytes
(`46 = '.'`, `115 = 's'`, `116 = 't'`). -/
def fileName (shard ts : Nat) : Bytes :=
  (decRepr shard ++ [46]) ++ (decRepr ts ++ [46, 115, 115, 116])

theorem decDigitsAux_fuel : ∀ (n f1 f2 : Nat), n < f1 → n < f2 →
    decDigitsAux f1 n = decDigitsAux f2 n := by
  intro n
  induction n using Nat.strong_induction_on with
  | _ n ih =>
    intro f1 f2 h1 h2
    cases f1 with
    | zero => omega
    | succ g1 =>
      cases f2 with
      | zero => omega
      | succ g2 =>
        unfold decDigitsAux
        by_cases hn : n < 10
        · simp [hn]
        · have hd : n / 10 < n := Nat.div_lt_self (by omega) (by omega)
          simp only [hn, if_false]
          rw [ih (n / 10) hd g1 g2 (by omega) (by omega)]

theorem decRepr_small (n : Nat) (h : n < 10) : decRepr n = [48 + n] := by
  unfold decRepr decDigitsAux
  simp [h]

theorem decRepr_step (n : Nat) (h : 10 ≤ n) :
    decRepr n = decRepr (n / 10) ++ [48 + n % 10] := by
  have hd : n / 10 < n := Nat.div_lt_self (by omega) (by omega)
  unfold decRepr
  conv =>
    lhs
    rw [decDigitsAux]
  simp only [Nat.not_lt.mpr h, if_false]
  rw [decDigitsAux_fuel (n / 10) n (n / 10 + 1) (by omega) (by omega)]

theorem decRepr_length_pos (n : Nat) : 0 < (decRepr n).length := by
  by_cases h : n < 10
  · rw [decRepr_small n h]
    simp
  · rw [decRepr_step n (by omega)]
    simp

/-- A common prefix cancels in the Go string order. -/
theorem bytesLt_append_left (p x y : Bytes) :
    bytesLt (p ++ x) (p ++ y) = bytesLt x y := by
  induction p with
  | nil => rfl
  | cons a as ih => simp [bytesLt, ih]

/-- Equal-length strings compare at a strict position, so appending
anything on either side preserves a strict comparison. -/
theorem bytesLt_append_of_eq_length :
    ∀ (a b u v : Bytes), a.length = b.length → bytesLt a b = true →
    bytesLt (a ++ u) (b ++ v) = true := by
  intro a
  induction a with
  | nil =>
    intro b u v hlen h
    cases b with
    | nil => simp [bytesLt] at h
    | cons y ys => simp at hlen
  | cons x xs ih =>
    intro b u v hlen h
    cases b with
    | nil => simp at hlen
    | cons y ys =>
      simp only [List.cons_append]
      by_cases hxy : x < y
      · simp [bytesLt, hxy]
      · by_cases hyx : y < x
        · simp [bytesLt, hxy, hyx] at h
        · simp only [bytesLt, hxy, hyx, if_false] at h ⊢
          exact ih ys u v (by simpa using hlen) h

/-- Equal decimal widths: numeric order and lexicographic order agree. -/
theorem decRepr_lt : ∀ (b a : Nat), a < b →
    (decRepr a).length = (decRepr b).length →
    bytesLt (decRepr a) (decRepr b) = true := by
  intro b
  induction b using Nat.strong_induction_on with
  | _ b ih =>
    intro a hab hlen
    by_cases hb : b < 10
    · have ha : a < 10 := by omega
      rw [decRepr_small a ha, decRepr_small b hb]
      simp [bytesLt, hab]
    · by_cases ha : a < 10
      · rw [decRepr_small a ha, decRepr_step b (by omega)] at hlen
        have := decRepr_length_pos (b / 10)
        simp only [List.length_append, List.length_cons, List.length_nil] at hlen
        omega
      · rw [decRepr_step a (by omega), decRepr_step b (by omega)] at hlen ⊢
        have hqlen : (decRepr (a / 10)).length = (decRepr (b / 10)).length := by
          simp at hlen
          omega
        have hq : a / 10 ≤ b / 10 := Nat.div_le_div_right (by omega)
        rcases Nat.lt_or_ge (a / 10) (b / 10) with hqlt | hqge
        · exact bytesLt_append_of_eq_length _ _ _ _ hqlen
            (ih (b / 10) (Nat.div_lt_self (by omega) (by omega)) (a / 10) hqlt hqlen)
        · have hqeq : a / 10 = b / 10 := by omega
          rw [hqeq, bytesLt_append_left]
          have hm : a % 10 < b % 10 := by omega
          simp [bytesLt, hm]

/-- C8 counterexample: lexicographic path order is not creation order.
A flush at t=100 touching shard 1 and a later flush at t=200 touching
shard 0 produce `"1.100.sst"` then `"0.200.sst"`, and the later file sorts
first; even within one shard, `"0.99.sst"` (created at t=99) sorts after
`"0.100.sst"` (created at t=100) because the decimal widths differ. -/
theorem c8_lex_order_is_not_creation_order :
    (100 < 200 ∧ bytesLt (fileName 0 200) (fileName 1 100) = true) ∧
    (99 < 100 ∧ bytesLt (fileName 0 100) (fileName 0 99) = true) := by
  refine ⟨⟨by decide, by decide⟩, ⟨by decide, by decide⟩⟩

/-- C8 (amended): for two segment files of the *same shard* whose
nanosecond timestamps render to the same number of decimal digits — true of
all real `UnixNano` values from 2001 to 2262, which have 19 digits — the
file created earlier sorts lexicographically before the file created later,
so `sort.Strings` load order is creation order within each shard; and since
every key is routed to exactly one shard, this is the order that makes a
later segment shadow an earlier one for any given key. Across shards the
sorted order is shard-major, not chronological (see the counterexample),
but no key's history spans two shards. -/
theorem c8_same_shard_equal_width_order (s ts1 ts2 : Nat) (h : ts1 < ts2)
    (hlen : (decRepr ts1).length = (decRepr ts2).length) :
    bytesLt (fileName s ts1) (fileName s ts2) = true := by
  unfold fileName
  rw [bytesLt_append_left]
  exact bytesLt_append_of_eq_length _ _ _ _ hlen (decRepr_lt ts2 ts1 h hlen)

/-- C8 witness: shard 3, timestamps 100 < 200 of equal width. -/
theorem c8_same_shard_equal_width_order_witness :
    bytesLt (fileName 3 100) (fileName 3 200) = true :=
  c8_same_shard_equal_width_order 3 100 200 (by decide) (by decide)

/-! ## Delete-then-Get across the engine (C2)

The plan: a deleted key is "dead" in a state when either the owning shard's
memtable holds a tombstone for it, or the memtable misses it and, walking
the table list newest-first, the first table that answers anything for the
key answers a tombstone. `Storage.Delete` establishes deadness, every
engine operation that is not a `Set` of that key preserves it (including
the flushes a `Set` can trigger, in both their success and failure paths),
and deadness makes `Storage.Get` return not-found. -/

theorem writeTable_length_le {bs fl : Nat} {es : List Entry} {file : Bytes}
    (hw : writeTable bs fl es = some file)
    (hval : ∀ e ∈ es, ValidEntry e)
    (hdata : dataLen es < 2 ^ 59) (hfl8 : fl * 8 < 2 ^ 32) :
    file.length ≤ 2 ^ 63 := by
  rw [writeTable_eq] at hw
  cases haa : addAll (List.replicate fl 0) (es.map Entry.key) with
  | none => rw [haa] at hw; cases hw
  | some f =>
    rw [haa, Option.map_some'] at hw
    have hfeq := Option.some.inj hw
    have hflen2 : f.length = fl := (addAll_length haa).trans (List.length_replicate _ _)
    rw [← hfeq]
    have hidx := idxBytes_buildIdx_le bs es 0 0 hval
    simp only [List.length_append, length_beBytes, length_buildData, hflen2]
    omega

/-- Whenever `SSTable.Write` completes (for whatever filter size it chose),
the file it produced opens and serves every lookup exactly. -/
theorem writeSSTable_success_roundtrip {bs : Nat} {sl : SkipListM} {file : Bytes}
    (hw : writeSSTable bs sl = some file)
    (hsort : SortedE sl.entries) (hval : ∀ e ∈ sl.entries, ValidEntry e)
    (hsize : sl.size.toNat < 2 ^ 34) (hdata : dataLen sl.entries < 2 ^ 59) :
    ∃ t, openTable file = some t ∧
      ∀ k2, tableGet t k2 = some (entriesLookup k2 sl.entries) := by
  have hn28 : sl.size.toNat / 64 < 2 ^ 28 := by omega
  have hfl8 := bloomBytes_mul8_lt hn28
  unfold writeSSTable at hw
  have hlen := writeTable_length_le hw hval hdata hfl8
  obtain ⟨f, haa, _, hopen⟩ := openTable_writeTable hw hval (by omega) hlen
  exact ⟨_, hopen, fun k2 => tableGet_writeTable hw haa hsort hval hfl8 k2⟩

theorem slGet_eq_entriesLookup (s : SkipListM) (k : Bytes) :
    slGet s k = entriesLookup k s.entries := rfl

theorem slSet_entries (s : SkipListM) (k v : Bytes) (f : Nat) (t : Bool) :
    (slSet s k v f t).entries = chainSet s.entries ⟨k, v, f, t⟩ := by
  unfold slSet
  by_cases h : containsKey s.entries k <;> simp [h]

theorem mem_chainSet : ∀ (es : List Entry) (e x : Entry),
    x ∈ chainSet es e → x = e ∨ x ∈ es := by
  intro es e
  induction es with
  | nil =>
    intro x hx
    simp [chainSet] at hx
    exact Or.inl hx
  | cons y ys ih =>
    intro x hx
    unfold chainSet at hx
    by_cases h1 : bytesLt e.key y.key
    · simp only [h1, if_true] at hx
      rcases List.mem_cons.mp hx with h | h
      · exact Or.inl h
      · exact Or.inr h
    · by_cases h2 : y.key == e.key
      · simp only [h1, if_false, h2, if_true] at hx
        rcases List.mem_cons.mp hx with h | h
        · exact Or.inl h
        · exact Or.inr (List.mem_cons_of_mem _ h)
      · simp only [h1, if_false, h2] at hx
        rcases List.mem_cons.mp hx with h | h
        · exact Or.inr (h ▸ List.mem_cons_self _ _)
        · rcases ih x h with h' | h'
          · exact Or.inl h'
          · exact Or.inr (List.mem_cons_of_mem _ h')

theorem chainSet_head? : ∀ (es : List Entry) (e : Entry),
    (chainSet es e).head? = some e ∨ (chainSet es e).head? = es.head? := by
  intro es e
  cases es with
  | nil => left; rfl
  | cons y ys =>
    unfold chainSet
    by_cases h1 : bytesLt e.key y.key
    · left; simp [h1]
    · by_cases h2 : y.key == e.key
      · left; simp [h1, h2]
      · right; simp [h1, h2]

/-- Sorted insertion keeps the chain sorted. -/
theorem chainSet_sorted : ∀ (es : List Entry) (e : Entry),
    SortedE es → SortedE (chainSet es e) := by
  intro es e
  induction es with
  | nil =>
    intro _
    unfold SortedE chainSet
    exact List.chain'_singleton _
  | cons y ys ih =>
    intro hs
    unfold SortedE at hs ⊢
    unfold chainSet
    by_cases h1 : bytesLt e.key y.key
    · simp only [h1, if_true]
      exact List.chain'_cons.mpr ⟨h1, hs⟩
    · by_cases h2 : y.key == e.key
      · simp only [h1, if_false, h2, if_true]
        have hy : y.key = e.key := by simpa using h2
        rcases List.chain'_cons'.mp hs with ⟨hh, ht⟩
        refine List.chain'_cons'.mpr ⟨?_, ht⟩
        intro z hz
        rw [← hy]
        exact hh z hz
      · simp only [h1, if_false, h2, if_false]
        rcases List.chain'_cons'.mp hs with ⟨hh, ht⟩
        have h1f : bytesLt e.key y.key = false := by
          simpa using h1
        have hye : bytesLt y.key e.key = true := by
          by_contra hc
          have hc' : bytesLt y.key e.key = false := by
            simpa using hc
          have := bytesLt_total hc' h1f
          rw [this] at h2
          simp at h2
        refine List.chain'_cons'.mpr ⟨?_, ih ht⟩
        intro z hz
        rcases chainSet_head? ys e with hh1 | hh2
        · rw [hh1] at hz
          simp at hz
          subst hz
          exact hye
        · rw [hh2] at hz
          exact hh z hz

theorem dataLen_chainSet_le : ∀ (es : List Entry) (e : Entry),
    dataLen (chainSet es e) ≤ dataLen es + entrySize e := by
  intro es e
  induction es with
  | nil =>
    simp [chainSet, dataLen]
  | cons y ys ih =>
    unfold chainSet
    by_cases h1 : bytesLt e.key y.key
    · rw [if_pos h1]
      simp only [dataLen_cons]
      omega
    · rw [if_neg h1]
      by_cases h2 : y.key == e.key
      · rw [if_pos h2]
        simp only [dataLen_cons]
        omega
      · rw [if_neg h2]
        simp only [dataLen_cons]
        omega

/-- One client operation against the engine. A `set` carries the I/O
oracle that governs the segment writes of the flush it may trigger. -/
inductive Op where
  | set : Bytes → Bytes → Nat → (Nat → Bool) → Op
  | del : Bytes → Op

def applyOp (st : EngineM) : Op → EngineM
  | Op.set k v f io => (storageSet io k v f st).1
  | Op.del k => (storageDelete k st).1

def applyOps (ops : List Op) (st : EngineM) : EngineM := ops.foldl applyOp st

/-- Upper bound on how much an operation can grow any shard (its record's
encoded size; a delete writes a tombstone record with an empty value). -/
def opBytes : Op → Nat
  | Op.set k v _ _ => k.length + v.length + 12
  | Op.del k => k.length + 12

def opsBytes (ops : List Op) : Nat := (ops.map opBytes).sum

/-- The operation's key/value/flags are within the record-format bounds. -/
def OpSafe : Op → Prop
  | Op.set k v f _ => k.length < 2 ^ 16 ∧ v.length < 2 ^ 32 ∧ f < 2 ^ 32
  | Op.del k => k.length < 2 ^ 16

/-- The operation is not a `Set` of the key `k` (deletes of `k` are fine). -/
def OpAvoids (k : Bytes) : Op → Prop
  | Op.set k2 _ _ _ => k2 ≠ k
  | Op.del _ => True

/-- Per-shard well-formedness: the chain is sorted, its records are within
the format bounds, and every record's key is routed to this shard. -/
def ShardWF (n j : Nat) (sl : SkipListM) : Prop :=
  SortedE sl.entries ∧ ∀ e ∈ sl.entries, ValidEntry e ∧ fnv32 e.key % n = j

def WFShards (ss : List SkipListM) : Prop :=
  0 < ss.length ∧ ∀ j, j < ss.length → ShardWF ss.length j (ss.getD j slNew)

def WFEngine (st : EngineM) : Prop := WFShards st.shards

/-- Every shard still has `b` bytes of headroom below the bounds that keep
the segment format faithful (`uint32 bloom*8` and `int64` offsets). -/
def HeadShards (ss : List SkipListM) (b : Nat) : Prop :=
  ∀ j, j < ss.length →
    (ss.getD j slNew).size.toNat + b < 2 ^ 34 ∧
    dataLen (ss.getD j slNew).entries + b < 2 ^ 59

def Headroom (st : EngineM) (b : Nat) : Prop := HeadShards st.shards b

/-- The key is dead given the owning shard's memtable and the table list:
either the memtable holds a tombstone for it, or the memtable misses it and
the newest table that answers anything for it answers a tombstone (all
tables newer than that one answer not-found). -/
def DeadKeyParts (k : Bytes) (sl : SkipListM) (ts : List TableM) : Prop :=
  (∃ v f, slGet sl k = some (v, f, true)) ∨
  (slGet sl k = none ∧
    ∃ older tdead newer, ts = older ++ tdead :: newer ∧
      (∀ t ∈ newer, tableGet t k = some none) ∧
      ∃ v f, tableGet tdead k = some (some (v, f, true)))

def DeadKeyShards (k : Bytes) (ss : List SkipListM) (ts : List TableM) : Prop :=
  DeadKeyParts k (ss.getD (fnv32 k % ss.length) slNew) ts

def DeadKey (k : Bytes) (st : EngineM) : Prop :=
  DeadKeyShards k st.shards st.tables

theorem opsBytes_cons (op : Op) (rest : List Op) :
    opsBytes (op :: rest) = opBytes op + opsBytes rest := by
  simp [opsBytes]

theorem HeadShards_mono {ss : List SkipListM} {b b2 : Nat} (h : b ≤ b2)
    (hh : HeadShards ss b2) : HeadShards ss b := by
  intro j hj
  obtain ⟨h1, h2⟩ := hh j hj
  exact ⟨by omega, by omega⟩

/-- A dead key makes `Storage.Get` answer not-found. -/
theorem tablesGetRev_skip (k : Bytes) : ∀ (l rest : List TableM),
    (∀ t ∈ l, tableGet t k = some none) →
    tablesGetRev k (l ++ rest) = tablesGetRev k rest := by
  intro l
  induction l with
  | nil => intro rest _; rfl
  | cons t ts ih =>
    intro rest h
    have ht := h t (List.mem_cons_self _ _)
    show tablesGetRev k (t :: (ts ++ rest)) = _
    simp only [tablesGetRev, ht]
    exact ih rest fun t' ht' => h t' (List.mem_cons_of_mem _ ht')

theorem deadKey_get (k : Bytes) (st : EngineM) (hd : DeadKey k st) :
    storageGet st k = some none := by
  unfold storageGet getShardIdx
  rcases hd with ⟨v, f, hg⟩ | ⟨hnone, older, tdead, newer, htab, hnew, v, f, htd⟩
  · rw [hg]
    rfl
  · rw [hnone]
    show tablesGetRev k st.tables.reverse = some none
    have hrev : (older ++ tdead :: newer).reverse
        = newer.reverse ++ (tdead :: older.reverse) := by
      simp
    rw [htab, hrev, tablesGetRev_skip k newer.reverse _
      fun t ht => hnew t (List.mem_reverse.mp ht)]
    show (match tableGet tdead k with
      | none => none
      | some (some (v, f, tomb)) => if tomb then some none else some (some (v, f))
      | some none => tablesGetRev k older.reverse) = some none
    rw [htd]
    rfl

/-- Updating one key (the `slSet` underlying both `Set` and `Delete`)
preserves per-shard well-formedness. -/
theorem WFShards_set (ss : List SkipListM) (k2 v : Bytes) (f : Nat) (t : Bool)
    (hwf : WFShards ss) (hk2 : k2.length < 2 ^ 16) (hv : v.length < 2 ^ 32)
    (hf : f < 2 ^ 32) :
    WFShards (ss.set (fnv32 k2 % ss.length)
      (slSet (ss.getD (fnv32 k2 % ss.length) slNew) k2 v f t)) := by
  obtain ⟨hn, hsw⟩ := hwf
  have hidx : fnv32 k2 % ss.length < ss.length := Nat.mod_lt _ hn
  refine ⟨by rw [List.length_set]; exact hn, ?_⟩
  intro j hj
  rw [List.length_set] at hj ⊢
  by_cases hji : j = fnv32 k2 % ss.length
  · rw [hji, getDset_self _ _ _ hidx]
    obtain ⟨hs, hm⟩ := hsw _ hidx
    constructor
    · unfold SortedE
      rw [slSet_entries]
      exact chainSet_sorted _ _ hs
    · intro e he
      rw [slSet_entries] at he
      rcases mem_chainSet _ _ _ he with he1 | he2
      · rw [he1]
        exact ⟨⟨hk2, hv, hf⟩, rfl⟩
      · exact hm e he2
  · rw [getDset_ne _ _ _ fun h => hji h.symm]
    exact hsw j hj

/-- The update consumes at most its record's encoded size of headroom. -/
theorem HeadShards_set (ss : List SkipListM) (k2 v : Bytes) (f : Nat) (t : Bool)
    (b : Nat) (hhr : HeadShards ss (k2.length + v.length + 12 + b)) :
    HeadShards (ss.set (fnv32 k2 % ss.length)
      (slSet (ss.getD (fnv32 k2 % ss.length) slNew) k2 v f t)) b := by
  intro j hj
  rw [List.length_set] at hj
  obtain ⟨h1, h2⟩ := hhr j hj
  by_cases hji : j = fnv32 k2 % ss.length
  · subst hji
    rw [getDset_self _ _ _ hj]
    constructor
    · rcases slSet_size (ss.getD (fnv32 k2 % ss.length) slNew) k2 v f t with hs | hs <;>
        rw [hs] <;> omega
    · have hd := dataLen_chainSet_le (ss.getD (fnv32 k2 % ss.length) slNew).entries
        ⟨k2, v, f, t⟩
      have he : entrySize ⟨k2, v, f, t⟩ = 12 + k2.length + v.length := rfl
      rw [he] at hd
      rw [slSet_entries]
      omega
  · rw [getDset_ne _ _ _ fun h => hji h.symm]
    exact ⟨by omega, by omega⟩

theorem DeadKeyParts_congr {k : Bytes} {sl sl2 : SkipListM} {ts : List TableM}
    (h : slGet sl2 k = slGet sl k) (hd : DeadKeyParts k sl ts) :
    DeadKeyParts k sl2 ts := by
  rcases hd with ⟨v, f, hg⟩ | ⟨hnone, rest⟩
  · exact Or.inl ⟨v, f, h.trans hg⟩
  · exact Or.inr ⟨h.trans hnone, rest⟩

/-- Appending a table that answers not-found for `k` keeps `k` dead. -/
theorem DeadKeyParts_append {k : Bytes} {sl : SkipListM} {ts : List TableM}
    {t : TableM} (htk : tableGet t k = some none)
    (hd : DeadKeyParts k sl ts) : DeadKeyParts k sl (ts ++ [t]) := by
  rcases hd with h | ⟨hn, older, tdead, newer, htab, hnew, v, f, htd⟩
  · exact Or.inl h
  · refine Or.inr ⟨hn, older, tdead, newer ++ [t], by rw [htab]; simp, ?_, v, f, htd⟩
    intro t' ht'
    rcases List.mem_append.mp ht' with h1 | h2
    · exact hnew t' h1
    · rw [List.mem_singleton.mp h2]
      exact htk

/-- A `Set`/`Delete` of a *different* key keeps `k` dead. -/
theorem DeadKeyShards_set_ne (k : Bytes) (ss : List SkipListM) (ts : List TableM)
    (k2 v : Bytes) (f : Nat) (t : Bool) (hn : 0 < ss.length) (hne : k2 ≠ k)
    (hd : DeadKeyShards k ss ts) :
    DeadKeyShards k (ss.set (fnv32 k2 % ss.length)
      (slSet (ss.getD (fnv32 k2 % ss.length) slNew) k2 v f t)) ts := by
  unfold DeadKeyShards at hd ⊢
  rw [List.length_set]
  by_cases hii : fnv32 k2 % ss.length = fnv32 k % ss.length
  · rw [hii, getDset_self _ _ _ (Nat.mod_lt _ hn)]
    exact DeadKeyParts_congr (slGet_slSet_ne _ _ _ _ _ _ hne) hd
  · rw [getDset_ne _ _ _ hii]
    exact hd

/-- `Delete(k)` itself makes `k` dead. -/
theorem DeadKeyShards_del_self (k : Bytes) (ss : List SkipListM)
    (ts : List TableM) (hn : 0 < ss.length) :
    DeadKeyShards k (ss.set (fnv32 k % ss.length)
      (slSet (ss.getD (fnv32 k % ss.length) slNew) k [] 0 true)) ts := by
  unfold DeadKeyShards
  rw [List.length_set, getDset_self _ _ _ (Nat.mod_lt _ hn)]
  exact Or.inl ⟨[], 0, slGet_slSet_self _ _ _ _ _⟩

/-- Flushing a shard other than `k`'s owner keeps `k` dead, provided the
new table answers not-found for `k`. -/
theorem DeadKeyShards_flushed_other (k : Bytes) (ss : List SkipListM)
    (ts : List TableM) (t : TableM) (i : Nat)
    (hik : i ≠ fnv32 k % ss.length)
    (htk : tableGet t k = some none) (hd : DeadKeyShards k ss ts) :
    DeadKeyShards k (ss.set i slNew) (ts ++ [t]) := by
  unfold DeadKeyShards at hd ⊢
  rw [List.length_set, getDset_ne _ _ _ hik]
  exact DeadKeyParts_append htk hd

/-- Flushing `k`'s owning shard keeps `k` dead: the new table answers for
`k` exactly what the flushed memtable held (tombstone, or nothing). -/
theorem DeadKeyShards_flushed_own (k : Bytes) (ss : List SkipListM)
    (ts : List TableM) (t : TableM) (i : Nat) (hn : 0 < ss.length)
    (hik : i = fnv32 k % ss.length)
    (ht : tableGet t k = some (entriesLookup k (ss.getD i slNew).entries))
    (hd : DeadKeyShards k ss ts) :
    DeadKeyShards k (ss.set i slNew) (ts ++ [t]) := by
  unfold DeadKeyShards at hd ⊢
  rw [List.length_set, ← hik, getDset_self _ _ _ (hik ▸ Nat.mod_lt _ hn)]
  rw [← hik] at hd
  have hmem : slGet slNew k = none := rfl
  rcases hd with ⟨v, f, hg⟩ | ⟨hnone, older, tdead, newer, htab, hnew, v, f, htd⟩
  · rw [← slGet_eq_entriesLookup, hg] at ht
    exact Or.inr ⟨hmem, ts, t, [], by simp,
      ⟨fun t' ht' => absurd ht' (List.not_mem_nil _), v, f, ht⟩⟩
  · rw [← slGet_eq_entriesLookup, hnone] at ht
    refine Or.inr ⟨hmem, older, tdead, newer ++ [t], by rw [htab]; simp, ?_, v, f, htd⟩
    intro t' ht'
    rcases List.mem_append.mp ht' with h1 | h2
    · exact hnew t' h1
    · rw [List.mem_singleton.mp h2]
      exact ht

/-- Swapping in a fresh skip list preserves shard well-formedness. -/
theorem WFShards_set_new (ss : List SkipListM) (i : Nat) (hwf : WFShards ss) :
    WFShards (ss.set i slNew) := by
  refine ⟨by rw [List.length_set]; exact hwf.1, ?_⟩
  intro j hj
  rw [List.length_set] at hj ⊢
  by_cases hji : j = i
  · subst hji
    rw [getDset_self _ _ _ hj]
    exact ⟨List.chain'_nil, by intro e he; cases he⟩
  · rw [getDset_ne _ _ _ fun h => hji h.symm]
    exact hwf.2 j hj

/-- Swapping in a fresh skip list can only increase headroom. -/
theorem HeadShards_set_new (ss : List SkipListM) (i : Nat) (b : Nat)
    (hhr : HeadShards ss b) : HeadShards (ss.set i slNew) b := by
  intro j hj
  rw [List.length_set] at hj
  by_cases hji : j = i
  · subst hji
    rw [getDset_self _ _ _ hj]
    obtain ⟨h1, h2⟩ := hhr j hj
    constructor
    · show (0 : Int).toNat + b < 2 ^ 34
      omega
    · show dataLen [] + b < 2 ^ 59
      have h3 : dataLen [] = 0 := rfl
      omega
  · rw [getDset_ne _ _ _ fun h => hji h.symm]
    exact hhr j hj

/-- One flush-loop iteration (with table loading) preserves shard
well-formedness, headroom, and the deadness of `k`, whether it skips the
shard, fails the write, fails the open, or succeeds. -/
theorem flushStep_c2 (io : Nat → Bool) (st : EngineM) (i : Nat) (k : Bytes)
    (b : Nat) (hwf : WFEngine st) (hhr : Headroom st b) (hdk : DeadKey k st) :
    WFEngine (flushStep io true st i).1 ∧ Headroom (flushStep io true st i).1 b ∧
      DeadKey k (flushStep io true st i).1 := by
  by_cases h0 : (st.shards.getD i slNew).size = 0
  · unfold flushStep
    rw [if_pos h0]
    exact ⟨hwf, hhr, hdk⟩
  · have hi : i < st.shards.length := by
      by_contra hge
      have hd : st.shards.getD i slNew = slNew :=
        List.getD_eq_default _ _ (Nat.le_of_not_lt hge)
      rw [hd] at h0
      exact h0 rfl
    cases hw : shardWrite io st.blockSize i (st.shards.getD i slNew) with
    | none =>
      unfold flushStep
      rw [if_neg h0, hw]
      exact ⟨hwf, hhr, hdk⟩
    | some file =>
      have hws : writeSSTable st.blockSize (st.shards.getD i slNew) = some file := by
        unfold shardWrite at hw
        by_cases hio : io i
        · rw [if_pos hio] at hw
          exact hw
        · rw [if_neg hio] at hw
          cases hw
      obtain ⟨hsorted, hmemwf⟩ := hwf.2 i hi
      obtain ⟨hsz, hdl⟩ := hhr i hi
      obtain ⟨t, hopen, htg⟩ := writeSSTable_success_roundtrip hws hsorted
        (fun e he => (hmemwf e he).1) (by omega) (by omega)
      have hstep : flushStep io true st i = (⟨st.shards.set i slNew,
          st.shardsSize - (st.shards.getD i slNew).size, st.tables ++ [t],
          st.blockSize, st.maxMemSize⟩, true) := by
        unfold flushStep
        rw [if_neg h0, hw]
        simp only [if_true, hopen]
      rw [hstep]
      refine ⟨WFShards_set_new st.shards i hwf, HeadShards_set_new st.shards i b hhr, ?_⟩
      by_cases hik : i = fnv32 k % st.shards.length
      · exact DeadKeyShards_flushed_own k st.shards st.tables t i hwf.1 hik (htg k) hdk
      · refine DeadKeyShards_flushed_other k st.shards st.tables t i hik ?_ hdk
        rw [htg k, entriesLookup_none_of_forall ?_]
        intro e he hek
        have hr := (hmemwf e he).2
        rw [hek] at hr
        exact hik (hr ▸ rfl)

/-- The whole flush loop preserves the three invariants. -/
theorem flushLoopGo_c2 (io : Nat → Bool) (k : Bytes) (b : Nat) :
    ∀ (is : List Nat) (st : EngineM),
      WFEngine st → Headroom st b → DeadKey k st →
      WFEngine (flushLoopGo io true is st).1 ∧
        Headroom (flushLoopGo io true is st).1 b ∧
        DeadKey k (flushLoopGo io true is st).1 := by
  intro is
  induction is with
  | nil => intro st h1 h2 h3; exact ⟨h1, h2, h3⟩
  | cons j rest ih =>
    intro st h1 h2 h3
    obtain ⟨hw1, hw2, hw3⟩ := flushStep_c2 io st j k b h1 h2 h3
    have hpair : flushStep io true st j
        = ((flushStep io true st j).1, (flushStep io true st j).2) := rfl
    cases hb : (flushStep io true st j).2 with
    | true =>
      rw [hb] at hpair
      unfold flushLoopGo
      rw [hpair]
      exact ih _ hw1 hw2 hw3
    | false =>
      rw [hb] at hpair
      unfold flushLoopGo
      rw [hpair]
      exact ⟨hw1, hw2, hw3⟩

theorem storageFlush_c2 (io : Nat → Bool) (k : Bytes) (b : Nat) (st : EngineM)
    (h1 : WFEngine st) (h2 : Headroom st b) (h3 : DeadKey k st) :
    WFEngine (storageFlush io true st).1 ∧
      Headroom (storageFlush io true st).1 b ∧
      DeadKey k (storageFlush io true st).1 := by
  unfold storageFlush
  by_cases hp : 0 < st.shardsSize
  · rw [if_pos hp]
    exact flushLoopGo_c2 io k b (List.range st.shards.length) st h1 h2 h3
  · rw [if_neg hp]
    exact ⟨h1, h2, h3⟩

/-- `Storage.Set` of a different key — including any flush it triggers —
preserves the invariants and the deadness of `k`. -/
theorem storageSet_c2 (k : Bytes) (io : Nat → Bool) (k2 v : Bytes) (f : Nat)
    (st : EngineM) (b : Nat) (hwf : WFEngine st)
    (hhr : Headroom st (k2.length + v.length + 12 + b)) (hdk : DeadKey k st)
    (hk2 : k2.length < 2 ^ 16) (hv : v.length < 2 ^ 32) (hf : f < 2 ^ 32)
    (hne : k2 ≠ k) :
    WFEngine (storageSet io k2 v f st).1 ∧
      Headroom (storageSet io k2 v f st).1 b ∧
      DeadKey k (storageSet io k2 v f st).1 := by
  have hwf2 := WFShards_set st.shards k2 v f false hwf hk2 hv hf
  have hhr2 := HeadShards_set st.shards k2 v f false b hhr
  have hdk2 := DeadKeyShards_set_ne k st.shards st.tables k2 v f false hwf.1 hne hdk
  have heq : storageSet io k2 v f st =
      (if st.maxMemSize ≤ st.shardsSize +
          ((slSet (st.shards.getD (fnv32 k2 % st.shards.length) slNew)
              k2 v f false).size -
            (st.shards.getD (fnv32 k2 % st.shards.length) slNew).size)
        then storageFlush io true ⟨st.shards.set (fnv32 k2 % st.shards.length)
            (slSet (st.shards.getD (fnv32 k2 % st.shards.length) slNew) k2 v f false),
          st.shardsSize +
            ((slSet (st.shards.getD (fnv32 k2 % st.shards.length) slNew)
                k2 v f false).size -
              (st.shards.getD (fnv32 k2 % st.shards.length) slNew).size),
          st.tables, st.blockSize, st.maxMemSize⟩
        else (⟨st.shards.set (fnv32 k2 % st.shards.length)
            (slSet (st.shards.getD (fnv32 k2 % st.shards.length) slNew) k2 v f false),
          st.shardsSize +
            ((slSet (st.shards.getD (fnv32 k2 % st.shards.length) slNew)
                k2 v f false).size -
              (st.shards.getD (fnv32 k2 % st.shards.length) slNew).size),
          st.tables, st.blockSize, st.maxMemSize⟩, true)) := rfl
  rw [heq]
  by_cases hc : st.maxMemSize ≤ st.shardsSize +
      ((slSet (st.shards.getD (fnv32 k2 % st.shards.length) slNew)
          k2 v f false).size -
        (st.shards.getD (fnv32 k2 % st.shards.length) slNew).size)
  · rw [if_pos hc]
    exact storageFlush_c2 io k b _ hwf2 hhr2 hdk2
  · rw [if_neg hc]
    exact ⟨hwf2, hhr2, hdk2⟩

/-- `Storage.Delete` of any key preserves the invariants, and keeps `k`
dead (a delete of `k` itself even establishes deadness). -/
theorem storageDelete_c2 (k k2 : Bytes) (st : EngineM) (b : Nat)
    (hwf : WFEngine st) (hhr : Headroom st (k2.length + 12 + b))
    (hdk : k2 = k ∨ DeadKey k st) (hk2 : k2.length < 2 ^ 16) :
    WFEngine (storageDelete k2 st).1 ∧ Headroom (storageDelete k2 st).1 b ∧
      DeadKey k (storageDelete k2 st).1 := by
  have hwf2 := WFShards_set st.shards k2 [] 0 true hwf hk2 (by norm_num) (by norm_num)
  have hhr2 := HeadShards_set st.shards k2 [] 0 true b
    (HeadShards_mono (by simp) hhr)
  have hdk2 : DeadKey k (storageDelete k2 st).1 := by
    by_cases hkk : k2 = k
    · subst hkk
      exact DeadKeyShards_del_self k2 st.shards st.tables hwf.1
    · exact DeadKeyShards_set_ne k st.shards st.tables k2 [] 0 true hwf.1 hkk
        (hdk.resolve_left hkk)
  exact ⟨hwf2, hhr2, hdk2⟩

theorem applyOp_c2 (k : Bytes) (op : Op) (st : EngineM) (b : Nat)
    (hwf : WFEngine st) (hhr : Headroom st (opBytes op + b)) (hdk : DeadKey k st)
    (hsafe : OpSafe op) (havoid : OpAvoids k op) :
    WFEngine (applyOp st op) ∧ Headroom (applyOp st op) b ∧
      DeadKey k (applyOp st op) := by
  cases op with
  | set k2 v f io =>
    obtain ⟨hk2, hv, hf⟩ := hsafe
    exact storageSet_c2 k io k2 v f st b hwf hhr hdk hk2 hv hf havoid
  | del k2 =>
    exact storageDelete_c2 k k2 st b hwf hhr (Or.inr hdk) hsafe

theorem applyOps_c2 (k : Bytes) : ∀ (ops : List Op) (st : EngineM),
    WFEngine st → Headroom st (opsBytes ops) → DeadKey k st →
    (∀ op ∈ ops, OpSafe op ∧ OpAvoids k op) →
    DeadKey k (applyOps ops st) := by
  intro ops
  induction ops with
  | nil => intro st _ _ h3 _; exact h3
  | cons op rest ih =>
    intro st h1 h2 h3 h4
    have hhr' : Headroom st (opBytes op + opsBytes rest) := by
      rw [← opsBytes_cons]
      exact h2
    obtain ⟨hw1, hw2, hw3⟩ := applyOp_c2 k op st (opsBytes rest) h1 hhr' h3
      (h4 op (List.mem_cons_self _ _)).1 (h4 op (List.mem_cons_self _ _)).2
    show DeadKey k (applyOps rest (applyOp st op))
    exact ih (applyOp st op) hw1 hw2 hw3 fun op' h' => h4 op' (List.mem_cons_of_mem _ h')

/-- C2: after the engine's `Delete(k)`, and for any following sequence of
engine operations none of which is a `Set` of `k` — deletes of anything,
sets of other keys, and every flush those sets trigger, with any per-shard
I/O outcomes — `Get(k)` answers not-found. The hypotheses are the standing
well-formedness of the engine (sorted, bounded, correctly-routed shards)
and enough numeric headroom that the fixed-width segment fields stay
faithful through the run; a tombstone met in the memtable or in the newest
answering segment ends the lookup with not-found without consulting older
segments (this is what `DeadKey`'s two cases encode, and `deadKey_get`
applies it). -/
theorem c2_delete_then_get_not_found (k : Bytes) (st0 : EngineM) (ops : List Op)
    (hwf : WFEngine st0) (hk : k.length < 2 ^ 16)
    (hhr : Headroom st0 (k.length + 12 + opsBytes ops))
    (hops : ∀ op ∈ ops, OpSafe op ∧ OpAvoids k op) :
    storageGet (applyOps ops (storageDelete k st0).1) k = some none := by
  obtain ⟨h1, h2, h3⟩ := storageDelete_c2 k k st0 (opsBytes ops) hwf hhr
    (Or.inl rfl) hk
  exact deadKey_get k _ (applyOps_c2 k ops _ h1 h2 h3 hops)

/-- C2 witness: on a fresh one-shard engine, delete key `"a"`, then set
another key and delete a third; the final `Get("a")` answers not-found. -/
theorem c2_delete_then_get_not_found_witness :
    storageGet (applyOps [Op.set [98] [1] 0 (fun _ => true), Op.del [99]]
      (storageDelete [97] ⟨[slNew], 0, [], 16, 1000⟩).1) [97] = some none := by
  apply c2_delete_then_get_not_found
  · refine ⟨by decide, ?_⟩
    intro j hj
    have hj0 : j = 0 := by
      have h1 : j < 1 := by simpa using hj
      omega
    subst hj0
    refine ⟨List.chain'_nil, ?_⟩
    intro e he
    simp [slNew] at he
  · decide
  · intro j hj
    have hj0 : j = 0 := by
      have h1 : j < 1 := by simpa using hj
      omega
    subst hj0
    exact ⟨by decide, by decide⟩
  · intro op hop
    simp only [List.mem_cons, List.not_mem_nil, or_false] at hop
    rcases hop with h | h <;> subst h
    · exact ⟨⟨by decide, by decide, by decide⟩, show ([98] : Bytes) ≠ [97] by decide⟩
    · exact ⟨show ([99] : Bytes).length < 2 ^ 16 by decide, trivial⟩

end LSM
